import Mathlib

set_option maxHeartbeats 1000000
set_option linter.unusedSectionVars false

/-!
A shallow embedding of the streak/date engine of the Habit Tracker
application (`src/script.js`), together with proofs about its
streak-calculation, rollover and check-in-toggle logic.

Conventions of the embedding:
* JS strings are Lean `String`s; the JS sort comparator
  `(a, b) => b.localeCompare(a)` is modelled as descending order under the
  codepoint-lexicographic order on strings (for ASCII date strings
  `localeCompare` agrees with codepoint order).
* `new Date(string)` applied to a date-only string is modelled by
  `parseYMD`/`parseD`: a strict `YYYY-MM-DD` string parses to a day
  number (days since 0000-01-01, proleptic Gregorian); anything else is
  an Invalid Date, modelled as `none`.  Arithmetic comparisons against a
  `NaN` day difference (`=== 0`, `=== 1`, `> 1`) are false, which the
  `Option` model reproduces.
* The wall-clock date `getTodayDateString()` is injected as an explicit
  `today : String` parameter of each operation that reads it.
* Mutation of the habit list / `localStorage` is modelled by explicit
  state passing over `AppState`.
-/

namespace HabitTracker

/-! ### Calendar arithmetic (model of JS `Date` on date-only strings) -/

def isLeapYear (y : Nat) : Bool :=
  (y % 4 == 0 && y % 100 != 0) || (y % 400 == 0)

def daysInMonth (y m : Nat) : Nat :=
  if m == 2 then (if isLeapYear y then 29 else 28)
  else if m == 4 || m == 6 || m == 9 || m == 11 then 30
  else 31

/-- Number of days in the years `0, 1, ..., y-1` (proleptic Gregorian):
`365*y` plus the number of leap years strictly below `y`. -/
def daysBeforeYear (y : Nat) : Nat :=
  365 * y + (y + 3) / 4 - (y + 99) / 100 + (y + 399) / 400

/-- Number of days of year `y` that precede month `m` (months are 1-based). -/
def daysBeforeMonth (y : Nat) : Nat → Nat
  | 0 => 0
  | 1 => 0
  | m + 2 => daysBeforeMonth y (m + 1) + daysInMonth y (m + 1)

/-- Day number (days since 0000-01-01) of the calendar date `y-m-d`. -/
def toDayNumber (y m d : Nat) : Nat :=
  daysBeforeYear y + daysBeforeMonth y m + (d - 1)

def isDigitChar (c : Char) : Bool :=
  48 ≤ c.toNat && c.toNat ≤ 57

def digitVal (c : Char) : Nat := c.toNat - 48

def digitChar (n : Nat) : Char := Char.ofNat (48 + n)

/-- A calendar-date triple `(y, m, d)` that denotes a real day of the
proleptic Gregorian calendar within the 4-digit-year range. -/
def ValidTriple (y m d : Nat) : Prop :=
  y ≤ 9999 ∧ 1 ≤ m ∧ m ≤ 12 ∧ 1 ≤ d ∧ d ≤ daysInMonth y m

instance (y m d : Nat) : Decidable (ValidTriple y m d) := by
  unfold ValidTriple; infer_instance

/-- Parse a strict `YYYY-MM-DD` string into a calendar-date triple.
Models `new Date(s)` for a date-only string: a malformed string is an
Invalid Date (`none`). -/
def parseYMD (s : String) : Option (Nat × Nat × Nat) :=
  match s.data with
  | [y1, y2, y3, y4, h1, m1, m2, h2, d1, d2] =>
    if isDigitChar y1 && isDigitChar y2 && isDigitChar y3 && isDigitChar y4
        && (h1 == '-') && isDigitChar m1 && isDigitChar m2 && (h2 == '-')
        && isDigitChar d1 && isDigitChar d2 then
      let y := 1000 * digitVal y1 + 100 * digitVal y2 + 10 * digitVal y3 + digitVal y4
      let m := 10 * digitVal m1 + digitVal m2
      let d := 10 * digitVal d1 + digitVal d2
      if 1 ≤ m ∧ m ≤ 12 ∧ 1 ≤ d ∧ d ≤ daysInMonth y m then some (y, m, d) else none
    else none
  | _ => none

/-- Parse a date string to its day number (`none` on Invalid Date). -/
def parseD (s : String) : Option Nat :=
  (parseYMD s).map (fun x => toDayNumber x.1 x.2.1 x.2.2)

/-- Canonical `YYYY-MM-DD` rendering of a calendar-date triple
(models `Date.prototype.toISOString().split('T')[0]`). -/
def printDate (y m d : Nat) : String :=
  ⟨[digitChar (y / 1000 % 10), digitChar (y / 100 % 10),
    digitChar (y / 10 % 10), digitChar (y % 10), '-',
    digitChar (m / 10 % 10), digitChar (m % 10), '-',
    digitChar (d / 10 % 10), digitChar (d % 10)]⟩

/-- The calendar date one day before `y-m-d`. -/
def predTriple (y m d : Nat) : Nat × Nat × Nat :=
  if 2 ≤ d then (y, m, d - 1)
  else if 2 ≤ m then (y, m - 1, daysInMonth y (m - 1))
  else (y - 1, 12, 31)

/-- Model of `const o = new Date(s); o.setDate(o.getDate() - 1);
o.toISOString().split('T')[0]` for a well-formed date-only string `s`.
Every call site in the source guards this with a successful date
comparison, so the Invalid-Date branch (where the JS original would
throw from `toISOString`) is never reached; it is mapped to `""`. -/
def prevDateString (s : String) : String :=
  match parseYMD s with
  | some (y, m, d) =>
      let p := predTriple y m d
      printDate p.1 p.2.1 p.2.2
  | none => ""

/-- `src/script.js` line 102 / 258 / 358: `date.split('T')[0]` — everything
before the first `'T'`. -/
def stripT (s : String) : String :=
  ⟨s.data.takeWhile (fun c => c != 'T')⟩

/-- `getDaysDifference` (lines 73–78): absolute whole-day difference of the
two parsed dates; `none` models the `NaN` produced by an Invalid Date. -/
def getDaysDifference (date1 date2 : String) : Option Nat :=
  match parseD date1, parseD date2 with
  | some a, some b => some (Nat.dist a b)
  | _, _ => none

/-- `getYesterdayDateString` (lines 43–47) relative to the injected `today`. -/
def getYesterdayDateString (today : String) : String :=
  prevDateString today

/-! ### Sorting and deduplication (model of lines 101–104) -/

/-- `a.localeCompare(b) < 0` for date-like strings: codepoint-lexicographic
comparison (decided on the character lists so that it evaluates inside the
kernel). -/
def strLtB (s t : String) : Bool :=
  decide (List.Lex (· < ·) s.data t.data)

/-- Insert into a descending-sorted list. -/
def insertDesc (lt : α → α → Bool) (a : α) : List α → List α
  | [] => [a]
  | b :: l => if lt b a then a :: b :: l else b :: insertDesc lt a l

/-- JS `Array.prototype.sort` with a comparator that makes larger elements
come first yields the descending-sorted permutation; insertion sort is the
canonical such permutation. -/
def sortDesc (lt : α → α → Bool) (l : List α) : List α :=
  l.foldr (insertDesc lt) []

/-- Descending sort of strings with comparator `(a, b) => b.localeCompare(a)`
(lines 104, 259, 429). -/
def sortDescStr (l : List String) : List String :=
  sortDesc strLtB l

/-- Worker for `dedupFirst`: drop every element that already occurred
(either in `seen` or earlier in the list). -/
def dedupFirstAux [DecidableEq α] (seen : List α) : List α → List α
  | [] => []
  | a :: l =>
      if a ∈ seen then dedupFirstAux seen l
      else a :: dedupFirstAux (a :: seen) l

/-- `filter((date, index, self) => self.indexOf(date) === index)`:
keep the first occurrence of each value. -/
def dedupFirst [DecidableEq α] (l : List α) : List α :=
  dedupFirstAux [] l

/-! ### Data model -/

structure StreakResult where
  currentStreak : Nat
  longestStreak : Nat
deriving DecidableEq, Repr

structure Habit where
  id : String
  name : String
  checkIns : List String
  currentStreak : Nat
  longestStreak : Nat
  createdAt : String
deriving DecidableEq, Repr

structure AppState where
  habits : List Habit
  lastCheckedDate : Option String
deriving DecidableEq, Repr

/-! ### Streak calculation (`calculateStreaks`, lines 95–175) -/

/-- Lines 101–104: strip time components, deduplicate keeping first
occurrences, sort descending (newest first). -/
def normalizeCheckIns (checkIns : List String) : List String :=
  sortDescStr (dedupFirst (checkIns.map stripT))

/-- Lines 126–141: walk the remaining sorted dates; a date at zero days
from the expected date extends the streak and moves `expected` to the day
before that date; any other date breaks the walk. -/
def currentStreakLoop (expected : String) : List String → Nat
  | [] => 0
  | c :: rest =>
      if getDaysDifference c expected == some 0 then
        1 + currentStreakLoop (prevDateString c) rest
      else 0

/-- Lines 117–143: the current streak is zero unless the most recent
check-in equals `today`; otherwise today counts as 1 and the walk
continues from yesterday. -/
def computeCurrentStreak (sorted : List String) (today : String) : Nat :=
  match sorted with
  | [] => 0
  | mostRecent :: rest =>
      if mostRecent == today then
        1 + currentStreakLoop (getYesterdayDateString today) rest
      else 0

/-- Lines 149–169: scan the whole sorted history pairwise; a one-day
difference extends the run, anything else closes it. -/
def longestLoop (prev : String) (tempStreak longest : Nat) : List String → Nat
  | [] => max longest tempStreak
  | c :: rest =>
      if getDaysDifference prev c == some 1 then
        longestLoop c (tempStreak + 1) longest rest
      else
        longestLoop c 1 (max longest tempStreak) rest

/-- Lines 145–172 including the final `max` after the loop. -/
def computeLongestStreak (sorted : List String) : Nat :=
  match sorted with
  | [] => 0
  | first :: rest => longestLoop first 1 0 rest

/-- `calculateStreaks` (lines 95–175); `today` is the injected value of
`getTodayDateString()` read at line 110. -/
def calculateStreaks (habit : Habit) (today : String) : StreakResult :=
  if habit.checkIns.isEmpty then ⟨0, 0⟩
  else
    let sortedCheckIns := normalizeCheckIns habit.checkIns
    if sortedCheckIns.isEmpty then ⟨0, 0⟩
    else ⟨computeCurrentStreak sortedCheckIns today, computeLongestStreak sortedCheckIns⟩

/-- `updateStreaks` (lines 181–185): overwrite the two derived fields. -/
def updateStreaks (habit : Habit) (today : String) : Habit :=
  let streaks := calculateStreaks habit today
  { habit with
      currentStreak := streaks.currentStreak
      longestStreak := streaks.longestStreak }

/-! ### Storage and rollover (lines 218–279) -/

/-- `saveHabitsToStorage` (lines 218–226): persists the habit list and sets
`state.lastCheckedDate`/`LAST_CHECKED_DATE_KEY` to today. -/
def saveHabitsToStorage (st : AppState) (today : String) : AppState :=
  { st with lastCheckedDate := some today }

/-- `hasDateChanged` (lines 232–241). -/
def hasDateChanged (st : AppState) (today : String) : Bool :=
  match st.lastCheckedDate with
  | none => true
  | some lastChecked => lastChecked != today

/-- Lines 257–261: most recent check-in after stripping time components
and sorting descending (no deduplication here). -/
def mostRecentCheckIn (habit : Habit) : Option String :=
  (sortDescStr (habit.checkIns.map stripT)).head?

/-- Lines 252–268: a habit is touched by the rollover only when it has
check-ins and the most recent one is more than 1 day from `today`
(`daysSinceLastCheckIn > 1`; a `NaN` comparison is false). -/
def rolloverNeedsUpdate (habit : Habit) (today : String) : Bool :=
  match mostRecentCheckIn habit with
  | none => false
  | some mostRecent =>
      match getDaysDifference mostRecent today with
      | some k => decide (1 < k)
      | none => false

/-- The per-habit effect of `handleDateRollover`'s `forEach` body
(lines 251–273). -/
def rolloverStep (habit : Habit) (today : String) : Habit :=
  if rolloverNeedsUpdate habit today then updateStreaks habit today else habit

/-- `handleDateRollover` (lines 247–279): update the habits that need it;
save (which records `lastCheckedDate = today`) only when at least one
habit was touched. -/
def handleDateRollover (st : AppState) (today : String) : AppState :=
  let habits' := st.habits.map (fun h => rolloverStep h today)
  let needsUpdate := st.habits.any (fun h => rolloverNeedsUpdate h today)
  if needsUpdate then saveHabitsToStorage { st with habits := habits' } today
  else { st with habits := habits' }

/-- The rollover polling glue of `init` (lines 648–650 and 659–663):
`if (hasDateChanged()) handleDateRollover();`. -/
def checkDateAndReconcile (st : AppState) (today : String) : AppState :=
  if hasDateChanged st today then handleDateRollover st today else st

/-! ### Check-in toggle (`toggleCheckIn`, lines 348–378) -/

/-- The log update of `toggleCheckIn` (lines 356–370): remove the
check-in whose date part is today (`splice`), or push today if absent;
the inner `includes(today)` check guards against duplicate insertion. -/
def toggledCheckIns (checkIns : List String) (today : String) : List String :=
  match checkIns.findIdx? (fun date => stripT date == today) with
  | some i => checkIns.eraseIdx i
  | none =>
      if checkIns.contains today then checkIns
      else checkIns ++ [today]

/-- The per-habit core of `toggleCheckIn` (lines 354–373): toggle the log,
then recalculate the streaks. -/
def toggleHabit (habit : Habit) (today : String) : Habit :=
  updateStreaks { habit with checkIns := toggledCheckIns habit.checkIns today } today

/-- `toggleCheckIn` (lines 348–378): find the habit by id, toggle it,
then save. -/
def toggleCheckIn (st : AppState) (id today : String) : AppState :=
  match st.habits.findIdx? (fun h => h.id == id) with
  | none => st
  | some i =>
      match st.habits.get? i with
      | none => st
      | some h =>
          saveHabitsToStorage { st with habits := st.habits.set i (toggleHabit h today) } today

/-! ### Specification-side definitions

Day-number formulations of the spec's descriptions of the two streak
statistics, used as the comparison points of the theorems below. -/

/-- A string that parses as a calendar date of year at least 1
(day number at least 366 = `toDayNumber 1 1 1`). -/
def GoodDate (s : String) : Prop :=
  (parseD s).isSome = true ∧ 366 ≤ (parseD s).getD 0

instance (s : String) : Decidable (GoodDate s) := by
  unfold GoodDate; infer_instance

/-- Spec walk for the current streak: starting from the expected
predecessor of today, count entries while each equals the expected date,
stopping at the first entry that is not the expected date (no look-ahead
past the first gap). -/
def consecCount (expected : Nat) : List Nat → Nat
  | [] => 0
  | d :: rest => if d = expected then 1 + consecCount (expected - 1) rest else 0

/-- Spec current streak on the descending deduplicated day-number list:
zero unless the most recent entry equals today; otherwise today counts
as 1 plus the consecutive predecessors. -/
def specCurrentStreak (dates : List Nat) (today : Nat) : Nat :=
  match dates with
  | [] => 0
  | mostRecent :: rest =>
      if mostRecent = today then 1 + consecCount (today - 1) rest else 0

/-- `d, d+1, ..., d+k-1` are all members of `dates`. -/
def isRunLen (dates : List Nat) (d k : Nat) : Bool :=
  (List.range k).all (fun i => decide ((d + i) ∈ dates))

/-- Some member of `dates` starts a consecutive-day run of length `k`. -/
def hasRunOfLen (dates : List Nat) (k : Nat) : Bool :=
  dates.any (fun d => isRunLen dates d k)

/-- Spec longest streak: the maximum length of a consecutive-day run
anywhere in the date set, independent of today. -/
def specLongestRun (dates : List Nat) : Nat :=
  ((List.range (dates.length + 1)).filter (fun k => hasRunOfLen dates k)).foldr max 0

/-- Day number of a date string that is known to parse. -/
def parseVal (s : String) : Nat :=
  (parseD s).getD 0

/-- Day-number rendering of the normalization pipeline of lines 101–104:
strip time components, parse, deduplicate, sort descending. -/
def natNormalize (checkIns : List String) : List Nat :=
  sortDesc (fun a b => decide (a < b))
    (dedupFirst (checkIns.filterMap (fun s => parseD (stripT s))))

/-- Day-number rendering of the scan of lines 149–169. -/
def longestLoopN (prev tempStreak longest : Nat) : List Nat → Nat
  | [] => max longest tempStreak
  | c :: rest =>
      if Nat.dist prev c = 1 then longestLoopN c (tempStreak + 1) longest rest
      else longestLoopN c 1 (max longest tempStreak) rest

/-- Day-number rendering of lines 145–172. -/
def longestScanN (dates : List Nat) : Nat :=
  match dates with
  | [] => 0
  | first :: rest => longestLoopN first 1 0 rest

/-- Accumulator-free form of the scan of lines 149–169. -/
def scanPure (prev tempStreak : Nat) : List Nat → Nat
  | [] => tempStreak
  | c :: rest =>
      if Nat.dist prev c = 1 then scanPure c (tempStreak + 1) rest
      else max tempStreak (scanPure c 1 rest)

/-- Length of the initial maximal run `prev-1, prev-2, ...` of a
descending day-number list. -/
def downRun (prev : Nat) : List Nat → Nat
  | [] => 0
  | c :: rest => if c + 1 = prev then 1 + downRun c rest else 0

/-! ## Digit characters -/

theorem digitChar_toNat {n : Nat} (h : n ≤ 9) : (digitChar n).toNat = 48 + n := by
  interval_cases n <;> decide

theorem isDigitChar_digitChar {n : Nat} (h : n ≤ 9) : isDigitChar (digitChar n) = true := by
  interval_cases n <;> decide

theorem digitVal_digitChar {n : Nat} (h : n ≤ 9) : digitVal (digitChar n) = n := by
  interval_cases n <;> decide

theorem digitVal_le_nine {c : Char} (h : isDigitChar c = true) : digitVal c ≤ 9 := by
  simp only [isDigitChar, Bool.and_eq_true, decide_eq_true_eq] at h
  simp only [digitVal]; omega

theorem digitChar_digitVal {c : Char} (h : isDigitChar c = true) : digitChar (digitVal c) = c := by
  simp only [isDigitChar, Bool.and_eq_true, decide_eq_true_eq] at h
  have h2 : 48 + digitVal c = c.toNat := by simp only [digitVal]; omega
  simp only [digitChar, h2, Char.ofNat_toNat]

theorem digitChar_lt_iff {i j : Nat} (hi : i ≤ 9) (hj : j ≤ 9) :
    digitChar i < digitChar j ↔ i < j := by
  interval_cases i <;> interval_cases j <;> decide

theorem digitChar_inj {i j : Nat} (hi : i ≤ 9) (hj : j ≤ 9) :
    digitChar i = digitChar j → i = j := by
  interval_cases i <;> interval_cases j <;> decide

theorem digit_ne_T {c : Char} (h : isDigitChar c = true) : c ≠ 'T' := by
  intro he
  rw [he] at h
  exact absurd h (by decide)

/-! ## Calendar arithmetic -/

theorem daysInMonth_pos (y m : Nat) : 1 ≤ daysInMonth y m := by
  simp only [daysInMonth]
  split_ifs <;> omega

theorem daysInMonth_le (y m : Nat) : daysInMonth y m ≤ 31 := by
  simp only [daysInMonth]
  split_ifs <;> omega

theorem daysInMonth_twelve (y : Nat) : daysInMonth y 12 = 31 := rfl

theorem daysBeforeMonth_succ (y : Nat) {m : Nat} (h : 1 ≤ m) :
    daysBeforeMonth y (m + 1) = daysBeforeMonth y m + daysInMonth y m := by
  match m, h with
  | m + 1, _ => rfl

theorem daysBeforeMonth_le_succ (y m : Nat) :
    daysBeforeMonth y m ≤ daysBeforeMonth y (m + 1) := by
  match m with
  | 0 => simp [daysBeforeMonth]
  | m + 1 =>
      rw [daysBeforeMonth_succ y (show 1 ≤ m + 1 by omega)]
      omega

theorem daysBeforeMonth_mono (y : Nat) {a b : Nat} (h : a ≤ b) :
    daysBeforeMonth y a ≤ daysBeforeMonth y b := by
  induction b with
  | zero => simp_all
  | succ b ih =>
      rcases Nat.lt_or_ge a (b + 1) with hab | hab
      · exact le_trans (ih (by omega)) (daysBeforeMonth_le_succ y b)
      · have : a = b + 1 := by omega
        subst this; exact le_rfl

theorem daysBeforeMonth_thirteen (y : Nat) :
    daysBeforeMonth y 13 = if isLeapYear y then 366 else 365 := by
  simp [daysBeforeMonth, daysInMonth]
  split_ifs <;> omega

theorem daysBeforeYear_succ (y : Nat) :
    daysBeforeYear (y + 1) = daysBeforeYear y + (if isLeapYear y then 366 else 365) := by
  cases hb : isLeapYear y <;>
    simp only [isLeapYear, Bool.or_eq_true, Bool.and_eq_true, beq_iff_eq, bne_iff_ne,
      decide_eq_true_eq, Bool.or_eq_false_iff, Bool.and_eq_false_iff, beq_eq_false_iff_ne,
      bne_eq_false_iff_eq, ne_eq] at hb <;>
    simp only [hb, if_true, if_false, Bool.false_eq_true, daysBeforeYear] <;>
    omega

theorem daysBeforeYear_succ_ge (y : Nat) :
    daysBeforeYear y + 365 ≤ daysBeforeYear (y + 1) := by
  rw [daysBeforeYear_succ y]
  split_ifs <;> omega

theorem daysBeforeYear_mono {a b : Nat} (h : a ≤ b) :
    daysBeforeYear a ≤ daysBeforeYear b := by
  induction b with
  | zero => simp_all
  | succ b ih =>
      rcases Nat.lt_or_ge a (b + 1) with hab | hab
      · exact le_trans (ih (by omega)) (by have := daysBeforeYear_succ_ge b; omega)
      · have : a = b + 1 := by omega
        subst this; exact le_rfl

theorem daysBeforeYear_one : daysBeforeYear 1 = 366 := by decide

theorem toDayNumber_lt_year_end {y m d : Nat} (h : ValidTriple y m d) :
    toDayNumber y m d < daysBeforeYear (y + 1) := by
  obtain ⟨hy, hm1, hm2, hd1, hd2⟩ := h
  have h1 := daysBeforeMonth_succ y hm1
  have h2 : daysBeforeMonth y (m + 1) ≤ daysBeforeMonth y 13 :=
    daysBeforeMonth_mono y (by omega)
  have h3 := daysBeforeMonth_thirteen y
  have h4 := daysBeforeYear_succ y
  simp only [toDayNumber]
  split_ifs at h3 h4 <;> omega

theorem daysBeforeYear_le_toDayNumber {y m d : Nat} :
    daysBeforeYear y ≤ toDayNumber y m d := by
  simp only [toDayNumber]; omega

theorem toDayNumber_lt_of_lex {y m d y' m' d' : Nat}
    (h : ValidTriple y m d) (h' : ValidTriple y' m' d')
    (hlex : y < y' ∨ (y = y' ∧ (m < m' ∨ (m = m' ∧ d < d')))) :
    toDayNumber y m d < toDayNumber y' m' d' := by
  rcases hlex with hy | ⟨rfl, hm | ⟨rfl, hd⟩⟩
  · calc toDayNumber y m d < daysBeforeYear (y + 1) := toDayNumber_lt_year_end h
      _ ≤ daysBeforeYear y' := daysBeforeYear_mono (by omega)
      _ ≤ toDayNumber y' m' d' := daysBeforeYear_le_toDayNumber
  · obtain ⟨hy1, hm1, hm2, hd1, hd2⟩ := h
    obtain ⟨hy1', hm1', hm2', hd1', hd2'⟩ := h'
    have h1 := daysBeforeMonth_succ y hm1
    have h2 : daysBeforeMonth y (m + 1) ≤ daysBeforeMonth y m' :=
      daysBeforeMonth_mono y (by omega)
    simp only [toDayNumber]
    omega
  · simp only [toDayNumber]
    obtain ⟨_, _, _, hd1, _⟩ := h
    omega

theorem toDayNumber_inj {y m d y' m' d' : Nat}
    (h : ValidTriple y m d) (h' : ValidTriple y' m' d')
    (heq : toDayNumber y m d = toDayNumber y' m' d') :
    y = y' ∧ m = m' ∧ d = d' := by
  by_contra hne
  have htri : y < y' ∨ (y = y' ∧ (m < m' ∨ (m = m' ∧ d < d'))) ∨
      (y' < y ∨ (y' = y ∧ (m' < m ∨ (m' = m ∧ d' < d)))) := by
    by_contra hcon
    push_neg at hcon hne
    omega
  rcases htri with hlt | hlt | hlt
  · exact absurd heq (Nat.ne_of_lt (toDayNumber_lt_of_lex h h' (Or.inl hlt)))
  · exact absurd heq (Nat.ne_of_lt (toDayNumber_lt_of_lex h h' (Or.inr hlt)))
  · exact absurd heq.symm (Nat.ne_of_lt (toDayNumber_lt_of_lex h' h (by tauto)))

theorem year_pos_of_daynum {y m d : Nat} (h : ValidTriple y m d)
    (hn : 366 ≤ toDayNumber y m d) : 1 ≤ y := by
  by_contra hy
  have : y = 0 := by omega
  subst this
  have h1 := toDayNumber_lt_year_end h
  rw [daysBeforeYear_one] at h1
  omega

/-! ## Parse/print round trips -/

theorem parseYMD_printDate {y m d : Nat} (h : ValidTriple y m d) :
    parseYMD (printDate y m d) = some (y, m, d) := by
  obtain ⟨hy, hm1, hm2, hd1, hd2⟩ := h
  have hdle : d ≤ 31 := le_trans hd2 (daysInMonth_le y m)
  have b1 : y / 1000 % 10 ≤ 9 := Nat.le_of_lt_succ (Nat.mod_lt _ (by omega))
  have b2 : y / 100 % 10 ≤ 9 := Nat.le_of_lt_succ (Nat.mod_lt _ (by omega))
  have b3 : y / 10 % 10 ≤ 9 := Nat.le_of_lt_succ (Nat.mod_lt _ (by omega))
  have b4 : y % 10 ≤ 9 := Nat.le_of_lt_succ (Nat.mod_lt _ (by omega))
  have b5 : m / 10 % 10 ≤ 9 := Nat.le_of_lt_succ (Nat.mod_lt _ (by omega))
  have b6 : m % 10 ≤ 9 := Nat.le_of_lt_succ (Nat.mod_lt _ (by omega))
  have b7 : d / 10 % 10 ≤ 9 := Nat.le_of_lt_succ (Nat.mod_lt _ (by omega))
  have b8 : d % 10 ≤ 9 := Nat.le_of_lt_succ (Nat.mod_lt _ (by omega))
  have e1 : 10 * (y / 10) + y % 10 = y := Nat.div_add_mod y 10
  have e1' : 10 * (y / 100) + y / 10 % 10 = y / 10 := by
    have : y / 10 / 10 = y / 100 := by rw [Nat.div_div_eq_div_mul]
    rw [← this]; exact Nat.div_add_mod (y / 10) 10
  have e1'' : 10 * (y / 1000) + y / 100 % 10 = y / 100 := by
    have : y / 100 / 10 = y / 1000 := by rw [Nat.div_div_eq_div_mul]
    rw [← this]; exact Nat.div_add_mod (y / 100) 10
  have e1''' : y / 1000 % 10 = y / 1000 := Nat.mod_eq_of_lt (by omega)
  have e2 : 10 * (m / 10) + m % 10 = m := Nat.div_add_mod m 10
  have e2' : m / 10 % 10 = m / 10 := Nat.mod_eq_of_lt (by omega)
  have e3 : 10 * (d / 10) + d % 10 = d := Nat.div_add_mod d 10
  have e3' : d / 10 % 10 = d / 10 := Nat.mod_eq_of_lt (by omega)
  have ey : 1000 * (y / 1000 % 10) + 100 * (y / 100 % 10) + 10 * (y / 10 % 10) + y % 10 = y := by
    omega
  have em : 10 * (m / 10 % 10) + m % 10 = m := by omega
  have ed : 10 * (d / 10 % 10) + d % 10 = d := by omega
  simp only [printDate, parseYMD, isDigitChar_digitChar b1, isDigitChar_digitChar b2,
    isDigitChar_digitChar b3, isDigitChar_digitChar b4, isDigitChar_digitChar b5,
    isDigitChar_digitChar b6, isDigitChar_digitChar b7, isDigitChar_digitChar b8,
    digitVal_digitChar b1, digitVal_digitChar b2, digitVal_digitChar b3, digitVal_digitChar b4,
    digitVal_digitChar b5, digitVal_digitChar b6, digitVal_digitChar b7, digitVal_digitChar b8,
    beq_self_eq_true, Bool.and_self, Bool.and_true, Bool.true_and, if_true]
  rw [ey, em, ed, if_pos ⟨hm1, hm2, hd1, hd2⟩]

theorem parseYMD_eq_some {s : String} {y m d : Nat} (h : parseYMD s = some (y, m, d)) :
    s = printDate y m d ∧ ValidTriple y m d := by
  obtain ⟨data⟩ := s
  rcases data with _ | ⟨c1, data⟩; · simp [parseYMD] at h
  rcases data with _ | ⟨c2, data⟩; · simp [parseYMD] at h
  rcases data with _ | ⟨c3, data⟩; · simp [parseYMD] at h
  rcases data with _ | ⟨c4, data⟩; · simp [parseYMD] at h
  rcases data with _ | ⟨c5, data⟩; · simp [parseYMD] at h
  rcases data with _ | ⟨c6, data⟩; · simp [parseYMD] at h
  rcases data with _ | ⟨c7, data⟩; · simp [parseYMD] at h
  rcases data with _ | ⟨c8, data⟩; · simp [parseYMD] at h
  rcases data with _ | ⟨c9, data⟩; · simp [parseYMD] at h
  rcases data with _ | ⟨c10, data⟩; · simp [parseYMD] at h
  rcases data with _ | ⟨c11, data⟩
  swap; · simp [parseYMD] at h
  simp only [parseYMD] at h
  split_ifs at h with hchk hval
  simp only [Option.some.injEq, Prod.mk.injEq] at h
  obtain ⟨hy, hm, hd⟩ := h
  simp only [Bool.and_eq_true, beq_iff_eq] at hchk
  obtain ⟨⟨⟨⟨⟨⟨⟨⟨⟨h1, h2⟩, h3⟩, h4⟩, h5⟩, h6⟩, h7⟩, h8⟩, h9⟩, h10⟩ := hchk
  have v1 := digitVal_le_nine h1
  have v2 := digitVal_le_nine h2
  have v3 := digitVal_le_nine h3
  have v4 := digitVal_le_nine h4
  have v6 := digitVal_le_nine h6
  have v7 := digitVal_le_nine h7
  have v9 := digitVal_le_nine h9
  have v10 := digitVal_le_nine h10
  subst hy hm hd h5 h8
  set a1 := digitVal c1 with ha1
  set a2 := digitVal c2 with ha2
  set a3 := digitVal c3 with ha3
  set a4 := digitVal c4 with ha4
  set b1 := digitVal c6 with hb1
  set b2 := digitVal c7 with hb2
  set e1 := digitVal c9 with he1
  set e2 := digitVal c10 with he2
  have gy1 : (1000 * a1 + 100 * a2 + 10 * a3 + a4) / 1000 % 10 = a1 := by omega
  have gy2 : (1000 * a1 + 100 * a2 + 10 * a3 + a4) / 100 % 10 = a2 := by omega
  have gy3 : (1000 * a1 + 100 * a2 + 10 * a3 + a4) / 10 % 10 = a3 := by omega
  have gy4 : (1000 * a1 + 100 * a2 + 10 * a3 + a4) % 10 = a4 := by omega
  have gm1 : (10 * b1 + b2) / 10 % 10 = b1 := by omega
  have gm2 : (10 * b1 + b2) % 10 = b2 := by omega
  have gd1 : (10 * e1 + e2) / 10 % 10 = e1 := by omega
  have gd2 : (10 * e1 + e2) % 10 = e2 := by omega
  constructor
  · simp only [printDate, gy1, gy2, gy3, gy4, gm1, gm2, gd1, gd2, ha1, ha2, ha3, ha4,
      hb1, hb2, he1, he2, digitChar_digitVal h1, digitChar_digitVal h2, digitChar_digitVal h3,
      digitChar_digitVal h4, digitChar_digitVal h6, digitChar_digitVal h7,
      digitChar_digitVal h9, digitChar_digitVal h10]
  · exact ⟨by omega, hval.1, hval.2.1, hval.2.2.1, hval.2.2.2⟩

theorem parseD_printDate {y m d : Nat} (h : ValidTriple y m d) :
    parseD (printDate y m d) = some (toDayNumber y m d) := by
  simp [parseD, parseYMD_printDate h]

theorem parseD_eq_some {s : String} {n : Nat} (h : parseD s = some n) :
    ∃ y m d, parseYMD s = some (y, m, d) ∧ toDayNumber y m d = n ∧
      s = printDate y m d ∧ ValidTriple y m d := by
  simp only [parseD, Option.map_eq_some'] at h
  obtain ⟨⟨y, m, d⟩, hp, hn⟩ := h
  obtain ⟨hs, hv⟩ := parseYMD_eq_some hp
  exact ⟨y, m, d, hp, hn, hs, hv⟩

theorem parseD_inj {s t : String} {n : Nat}
    (hs : parseD s = some n) (ht : parseD t = some n) : s = t := by
  obtain ⟨y, m, d, _, hn, hps, hvs⟩ := parseD_eq_some hs
  obtain ⟨y', m', d', _, hn', hpt, hvt⟩ := parseD_eq_some ht
  obtain ⟨ey, em, ed⟩ := toDayNumber_inj hvs hvt (by omega)
  rw [hps, hpt, ey, em, ed]

theorem predTriple_spec {y m d : Nat} (h : ValidTriple y m d)
    (hn : 366 ≤ toDayNumber y m d) :
    ValidTriple (predTriple y m d).1 (predTriple y m d).2.1 (predTriple y m d).2.2 ∧
      toDayNumber (predTriple y m d).1 (predTriple y m d).2.1 (predTriple y m d).2.2 + 1 =
        toDayNumber y m d := by
  obtain ⟨hy, hm1, hm2, hd1, hd2⟩ := h
  simp only [predTriple]
  split_ifs with hd hm
  · show ValidTriple y m (d - 1) ∧ toDayNumber y m (d - 1) + 1 = toDayNumber y m d
    exact ⟨⟨hy, hm1, hm2, by omega, by omega⟩, by simp only [toDayNumber]; omega⟩
  · show ValidTriple y (m - 1) (daysInMonth y (m - 1)) ∧
      toDayNumber y (m - 1) (daysInMonth y (m - 1)) + 1 = toDayNumber y m d
    have hdm := daysInMonth_pos y (m - 1)
    have hsucc : daysBeforeMonth y (m - 1 + 1) = daysBeforeMonth y (m - 1) + daysInMonth y (m - 1) :=
      daysBeforeMonth_succ y (by omega)
    have hmm : m - 1 + 1 = m := by omega
    rw [hmm] at hsucc
    refine ⟨⟨hy, by omega, by omega, by omega, le_rfl⟩, ?_⟩
    simp only [toDayNumber]
    omega
  · show ValidTriple (y - 1) 12 31 ∧ toDayNumber (y - 1) 12 31 + 1 = toDayNumber y m d
    have hm1' : m = 1 := by omega
    have hd1' : d = 1 := by omega
    subst hm1' hd1'
    have hy1 : 1 ≤ y := year_pos_of_daynum ⟨hy, by omega, by omega, by omega, hd2⟩ hn
    have h13 := daysBeforeMonth_thirteen (y - 1)
    have h12 : daysBeforeMonth (y - 1) 13 = daysBeforeMonth (y - 1) 12 + daysInMonth (y - 1) 12 :=
      daysBeforeMonth_succ (y - 1) (by omega)
    have hstep := daysBeforeYear_succ (y - 1)
    have hyy : y - 1 + 1 = y := by omega
    rw [hyy] at hstep
    refine ⟨⟨by omega, by omega, by omega, by omega, by rw [daysInMonth_twelve]⟩, ?_⟩
    rw [daysInMonth_twelve] at h12
    have hb1 : daysBeforeMonth y 1 = 0 := rfl
    simp only [toDayNumber] at hn ⊢
    split_ifs at h13 hstep <;> omega

theorem parseD_prevDateString {s : String} {n : Nat}
    (hp : parseD s = some n) (hn : 366 ≤ n) :
    parseD (prevDateString s) = some (n - 1) := by
  obtain ⟨y, m, d, hpy, hdn, _, hv⟩ := parseD_eq_some hp
  obtain ⟨hv', hdn'⟩ := predTriple_spec hv (by omega)
  simp only [prevDateString, hpy]
  rw [parseD_printDate hv']
  congr 1
  omega

/-! ## String order vs day-number order -/

theorem lex_cons_inv {a b : Char} {l1 l2 : List Char}
    (h : List.Lex (· < ·) (a :: l1) (b :: l2)) :
    a < b ∨ (a = b ∧ List.Lex (· < ·) l1 l2) := by
  cases h with
  | rel h => exact Or.inl h
  | cons h => exact Or.inr ⟨rfl, h⟩

theorem digits_decomp4 {y : Nat} (h : y ≤ 9999) :
    y = 1000 * (y / 1000 % 10) + 100 * (y / 100 % 10) + 10 * (y / 10 % 10) + y % 10 := by
  have e1 : 10 * (y / 10) + y % 10 = y := Nat.div_add_mod y 10
  have e2 : 10 * (y / 100) + y / 10 % 10 = y / 10 := by
    have : y / 10 / 10 = y / 100 := by rw [Nat.div_div_eq_div_mul]
    rw [← this]; exact Nat.div_add_mod (y / 10) 10
  have e3 : 10 * (y / 1000) + y / 100 % 10 = y / 100 := by
    have : y / 100 / 10 = y / 1000 := by rw [Nat.div_div_eq_div_mul]
    rw [← this]; exact Nat.div_add_mod (y / 100) 10
  have e4 : y / 1000 % 10 = y / 1000 := Nat.mod_eq_of_lt (by omega)
  omega

theorem digits_decomp2 {m : Nat} (h : m ≤ 99) :
    m = 10 * (m / 10 % 10) + m % 10 := by
  have e1 : 10 * (m / 10) + m % 10 = m := Nat.div_add_mod m 10
  have e2 : m / 10 % 10 = m / 10 := Nat.mod_eq_of_lt (by omega)
  omega

theorem printDate_lt_of_lex {y m d y' m' d' : Nat}
    (hv : ValidTriple y m d) (hv' : ValidTriple y' m' d')
    (hlt : printDate y m d < printDate y' m' d') :
    y < y' ∨ (y = y' ∧ (m < m' ∨ (m = m' ∧ d < d'))) := by
  obtain ⟨hy, hm1, hm2, hd1, hd2⟩ := hv
  obtain ⟨hy', hm1', hm2', hd1', hd2'⟩ := hv'
  have hdle : d ≤ 31 := le_trans hd2 (daysInMonth_le y m)
  have hdle' : d' ≤ 31 := le_trans hd2' (daysInMonth_le y' m')
  have b1 : y / 1000 % 10 ≤ 9 := Nat.le_of_lt_succ (Nat.mod_lt _ (by omega))
  have b2 : y / 100 % 10 ≤ 9 := Nat.le_of_lt_succ (Nat.mod_lt _ (by omega))
  have b3 : y / 10 % 10 ≤ 9 := Nat.le_of_lt_succ (Nat.mod_lt _ (by omega))
  have b4 : y % 10 ≤ 9 := Nat.le_of_lt_succ (Nat.mod_lt _ (by omega))
  have b5 : m / 10 % 10 ≤ 9 := Nat.le_of_lt_succ (Nat.mod_lt _ (by omega))
  have b6 : m % 10 ≤ 9 := Nat.le_of_lt_succ (Nat.mod_lt _ (by omega))
  have b7 : d / 10 % 10 ≤ 9 := Nat.le_of_lt_succ (Nat.mod_lt _ (by omega))
  have b8 : d % 10 ≤ 9 := Nat.le_of_lt_succ (Nat.mod_lt _ (by omega))
  have b1' : y' / 1000 % 10 ≤ 9 := Nat.le_of_lt_succ (Nat.mod_lt _ (by omega))
  have b2' : y' / 100 % 10 ≤ 9 := Nat.le_of_lt_succ (Nat.mod_lt _ (by omega))
  have b3' : y' / 10 % 10 ≤ 9 := Nat.le_of_lt_succ (Nat.mod_lt _ (by omega))
  have b4' : y' % 10 ≤ 9 := Nat.le_of_lt_succ (Nat.mod_lt _ (by omega))
  have b5' : m' / 10 % 10 ≤ 9 := Nat.le_of_lt_succ (Nat.mod_lt _ (by omega))
  have b6' : m' % 10 ≤ 9 := Nat.le_of_lt_succ (Nat.mod_lt _ (by omega))
  have b7' : d' / 10 % 10 ≤ 9 := Nat.le_of_lt_succ (Nat.mod_lt _ (by omega))
  have b8' : d' % 10 ≤ 9 := Nat.le_of_lt_succ (Nat.mod_lt _ (by omega))
  have dy := digits_decomp4 hy
  have dy' := digits_decomp4 hy'
  have dm := digits_decomp2 (m := m) (by omega)
  have dm' := digits_decomp2 (m := m') (by omega)
  have dd := digits_decomp2 (m := d) (by omega)
  have dd' := digits_decomp2 (m := d') (by omega)
  rw [String.lt_iff_toList_lt] at hlt
  simp only [printDate, String.toList] at hlt
  rcases lex_cons_inv hlt with h | ⟨he1, hlt⟩
  · rw [digitChar_lt_iff b1 b1'] at h; omega
  replace he1 := digitChar_inj b1 b1' he1
  rcases lex_cons_inv hlt with h | ⟨he2, hlt⟩
  · rw [digitChar_lt_iff b2 b2'] at h; omega
  replace he2 := digitChar_inj b2 b2' he2
  rcases lex_cons_inv hlt with h | ⟨he3, hlt⟩
  · rw [digitChar_lt_iff b3 b3'] at h; omega
  replace he3 := digitChar_inj b3 b3' he3
  rcases lex_cons_inv hlt with h | ⟨he4, hlt⟩
  · rw [digitChar_lt_iff b4 b4'] at h; omega
  replace he4 := digitChar_inj b4 b4' he4
  rcases lex_cons_inv hlt with h | ⟨_, hlt⟩
  · exact absurd h (lt_irrefl _)
  rcases lex_cons_inv hlt with h | ⟨he5, hlt⟩
  · rw [digitChar_lt_iff b5 b5'] at h; omega
  replace he5 := digitChar_inj b5 b5' he5
  rcases lex_cons_inv hlt with h | ⟨he6, hlt⟩
  · rw [digitChar_lt_iff b6 b6'] at h; omega
  replace he6 := digitChar_inj b6 b6' he6
  rcases lex_cons_inv hlt with h | ⟨_, hlt⟩
  · exact absurd h (lt_irrefl _)
  rcases lex_cons_inv hlt with h | ⟨he7, hlt⟩
  · rw [digitChar_lt_iff b7 b7'] at h; omega
  replace he7 := digitChar_inj b7 b7' he7
  rcases lex_cons_inv hlt with h | ⟨he8, hlt⟩
  · rw [digitChar_lt_iff b8 b8'] at h; omega
  exact absurd hlt (List.Lex.not_nil_right _ _)

theorem parseD_lt_of_lt {s t : String} {a b : Nat}
    (hs : parseD s = some a) (ht : parseD t = some b) (hlt : s < t) : a < b := by
  obtain ⟨y, m, d, _, hna, hps, hvs⟩ := parseD_eq_some hs
  obtain ⟨y', m', d', _, hnb, hpt, hvt⟩ := parseD_eq_some ht
  subst hps hpt
  have hlex := printDate_lt_of_lex hvs hvt hlt
  have := toDayNumber_lt_of_lex hvs hvt hlex
  omega

/-! ## stripT -/

theorem takeWhile_eq_self_of {α : Type} {p : α → Bool} {l : List α}
    (h : ∀ c ∈ l, p c = true) : l.takeWhile p = l := by
  induction l with
  | nil => rfl
  | cons a l ih =>
      rw [List.takeWhile_cons, if_pos (h a (by simp))]
      rw [ih (fun c hc => h c (by simp [hc]))]

theorem stripT_eq_self {s : String} {n : Nat} (h : parseD s = some n) :
    stripT s = s := by
  obtain ⟨y, m, d, _, _, hps, hv⟩ := parseD_eq_some h
  subst hps
  obtain ⟨hy, hm1, hm2, hd1, hd2⟩ := hv
  have hdle : d ≤ 31 := le_trans hd2 (daysInMonth_le y m)
  simp only [stripT, printDate]
  congr 1
  apply takeWhile_eq_self_of
  intro c hc
  have hdig : ∀ k : Nat, k ≤ 9 → (digitChar k != 'T') = true := by
    intro k hk
    exact bne_iff_ne.mpr (digit_ne_T (isDigitChar_digitChar hk))
  simp only [List.mem_cons, List.not_mem_nil, or_false] at hc
  rcases hc with rfl | rfl | rfl | rfl | rfl | rfl | rfl | rfl | rfl | rfl
  · exact hdig _ (Nat.le_of_lt_succ (Nat.mod_lt _ (by omega)))
  · exact hdig _ (Nat.le_of_lt_succ (Nat.mod_lt _ (by omega)))
  · exact hdig _ (Nat.le_of_lt_succ (Nat.mod_lt _ (by omega)))
  · exact hdig _ (Nat.le_of_lt_succ (Nat.mod_lt _ (by omega)))
  · decide
  · exact hdig _ (Nat.le_of_lt_succ (Nat.mod_lt _ (by omega)))
  · exact hdig _ (Nat.le_of_lt_succ (Nat.mod_lt _ (by omega)))
  · decide
  · exact hdig _ (Nat.le_of_lt_succ (Nat.mod_lt _ (by omega)))
  · exact hdig _ (Nat.le_of_lt_succ (Nat.mod_lt _ (by omega)))

theorem stripT_stripT (s : String) : stripT (stripT s) = stripT s := by
  simp only [stripT]
  congr 1
  apply takeWhile_eq_self_of
  intro c hc
  exact List.mem_takeWhile_imp (p := fun x => x != 'T') hc

/-! ## Sorting -/

section SortLemmas

variable {α : Type} [LinearOrder α] {lt : α → α → Bool}

theorem insertDesc_perm (a : α) (l : List α) : (insertDesc lt a l).Perm (a :: l) := by
  induction l with
  | nil => rfl
  | cons b l ih =>
      simp only [insertDesc]
      split_ifs
      · rfl
      · exact ((ih.cons b).trans (List.Perm.swap a b l))

theorem sortDesc_perm (l : List α) : (sortDesc lt l).Perm l := by
  induction l with
  | nil => rfl
  | cons a l ih => exact (insertDesc_perm a (sortDesc lt l)).trans (ih.cons a)

theorem mem_sortDesc {l : List α} {x : α} : x ∈ sortDesc lt l ↔ x ∈ l :=
  (sortDesc_perm l).mem_iff

theorem insertDesc_pairwise (hlt : ∀ a b, lt a b = true ↔ a < b) (a : α) {l : List α}
    (h : l.Pairwise (· ≥ ·)) : (insertDesc lt a l).Pairwise (· ≥ ·) := by
  induction l with
  | nil => simp [insertDesc]
  | cons b l ih =>
      rw [List.pairwise_cons] at h
      obtain ⟨hb, hl⟩ := h
      simp only [insertDesc]
      split_ifs with hba
      · rw [hlt] at hba
        refine List.pairwise_cons.mpr ⟨?_, List.pairwise_cons.mpr ⟨hb, hl⟩⟩
        intro x hx
        rcases List.mem_cons.mp hx with rfl | hx
        · exact le_of_lt hba
        · exact le_trans (hb x hx) (le_of_lt hba)
      · have hab : a ≤ b := le_of_not_lt (fun hcon => hba ((hlt b a).mpr hcon))
        refine List.pairwise_cons.mpr ⟨?_, ih hl⟩
        intro x hx
        rcases List.mem_cons.mp ((insertDesc_perm a l).mem_iff.mp hx) with rfl | hxl
        · exact hab
        · exact hb x hxl

theorem sortDesc_pairwise (hlt : ∀ a b, lt a b = true ↔ a < b) (l : List α) :
    (sortDesc lt l).Pairwise (· ≥ ·) := by
  induction l with
  | nil => simp [sortDesc]
  | cons a l ih => exact insertDesc_pairwise hlt a ih

theorem sortDesc_pairwise_gt (hlt : ∀ a b, lt a b = true ↔ a < b) {l : List α}
    (hn : l.Nodup) : (sortDesc lt l).Pairwise (· > ·) := by
  have h1 := sortDesc_pairwise hlt l
  have h2 : (sortDesc lt l).Nodup := ((sortDesc_perm l).nodup_iff).mpr hn
  exact (h1.and h2).imp (fun h => lt_of_le_of_ne h.1 (Ne.symm h.2))

theorem sortDesc_eq_of_mem_iff (hlt : ∀ a b, lt a b = true ↔ a < b) {l1 l2 : List α}
    (h1 : l1.Nodup) (h2 : l2.Nodup) (hm : ∀ x, x ∈ l1 ↔ x ∈ l2) :
    sortDesc lt l1 = sortDesc lt l2 := by
  haveI : IsAntisymm α (· > ·) := ⟨fun a b ha hb => absurd ha (lt_asymm hb)⟩
  have hperm : (sortDesc lt l1).Perm (sortDesc lt l2) :=
    (sortDesc_perm l1).trans (((List.perm_ext_iff_of_nodup h1 h2).mpr hm).trans
      (sortDesc_perm l2).symm)
  exact List.eq_of_perm_of_sorted hperm (sortDesc_pairwise_gt hlt h1) (sortDesc_pairwise_gt hlt h2)

theorem sortDesc_head_max (hlt : ∀ a b, lt a b = true ↔ a < b) {l : List α} {m : α}
    (hx : (sortDesc lt l).head? = some m) : m ∈ l ∧ ∀ x ∈ l, x ≤ m := by
  have hpw := sortDesc_pairwise hlt l
  have hperm : (sortDesc lt l).Perm l := sortDesc_perm l
  match hs : sortDesc lt l with
  | [] => rw [hs] at hx; simp at hx
  | a :: rest =>
      rw [hs] at hx hpw hperm
      simp only [List.head?_cons, Option.some.injEq] at hx
      subst hx
      rw [List.pairwise_cons] at hpw
      constructor
      · exact hperm.mem_iff.mp (by simp)
      · intro x hxl
        rcases List.mem_cons.mp (hperm.mem_iff.mpr hxl) with rfl | hxr
        · exact le_rfl
        · exact hpw.1 x hxr

end SortLemmas

/-! ## Deduplication -/

section DedupLemmas

variable {α : Type} [DecidableEq α]

theorem mem_dedupFirstAux {l : List α} :
    ∀ {seen : List α} {x : α}, x ∈ dedupFirstAux seen l ↔ x ∈ l ∧ x ∉ seen := by
  induction l with
  | nil => intro seen x; simp [dedupFirstAux]
  | cons a l ih =>
      intro seen x
      simp only [dedupFirstAux]
      split_ifs with ha
      · rw [ih]
        simp only [List.mem_cons]
        constructor
        · rintro ⟨hx, hs⟩; exact ⟨Or.inr hx, hs⟩
        · rintro ⟨rfl | hx, hs⟩
          · exact absurd ha hs
          · exact ⟨hx, hs⟩
      · simp only [List.mem_cons, ih, List.mem_cons]
        constructor
        · rintro (rfl | ⟨hx, hs⟩)
          · exact ⟨Or.inl rfl, ha⟩
          · exact ⟨Or.inr hx, fun hc => hs (Or.inr hc)⟩
        · rintro ⟨rfl | hx, hs⟩
          · exact Or.inl rfl
          · by_cases hxa : x = a
            · exact Or.inl hxa
            · exact Or.inr ⟨hx, fun hc => (by rcases hc with h | h; exact hxa h; exact hs h)⟩

theorem mem_dedupFirst {l : List α} {x : α} : x ∈ dedupFirst l ↔ x ∈ l := by
  rw [dedupFirst, mem_dedupFirstAux]
  simp

theorem nodup_dedupFirstAux {l : List α} : ∀ {seen : List α}, (dedupFirstAux seen l).Nodup := by
  induction l with
  | nil => intro seen; simp [dedupFirstAux]
  | cons a l ih =>
      intro seen
      simp only [dedupFirstAux]
      split_ifs with ha
      · exact ih
      · refine List.nodup_cons.mpr ⟨?_, ih⟩
        rw [mem_dedupFirstAux]
        rintro ⟨_, hs⟩
        exact hs (by simp)

theorem nodup_dedupFirst (l : List α) : (dedupFirst l).Nodup := nodup_dedupFirstAux

theorem dedupFirstAux_eq_self {l : List α} :
    ∀ {seen : List α}, l.Nodup → (∀ x ∈ l, x ∉ seen) → dedupFirstAux seen l = l := by
  induction l with
  | nil => intro seen _ _; rfl
  | cons a l ih =>
      intro seen hn hs
      rw [List.nodup_cons] at hn
      simp only [dedupFirstAux]
      rw [if_neg (hs a (by simp))]
      congr 1
      refine ih hn.2 ?_
      intro x hx
      simp only [List.mem_cons, not_or]
      exact ⟨fun hc => hn.1 (hc ▸ hx), hs x (by simp [hx])⟩

theorem dedupFirst_eq_self {l : List α} (hn : l.Nodup) : dedupFirst l = l :=
  dedupFirstAux_eq_self hn (by simp)

theorem dedupFirst_idem (l : List α) : dedupFirst (dedupFirst l) = dedupFirst l :=
  dedupFirst_eq_self (nodup_dedupFirst l)

theorem dedupFirst_ne_nil {l : List α} (h : l ≠ []) : dedupFirst l ≠ [] := by
  match l with
  | a :: l =>
      simp only [dedupFirst, dedupFirstAux]
      rw [if_neg (by simp)]
      simp

theorem dedupFirstAux_map {β : Type} [DecidableEq β] (f : α → β) (P : α → Prop)
    (hinj : ∀ x y, P x → P y → f x = f y → x = y) :
    ∀ (l seen : List α), (∀ x ∈ l, P x) → (∀ x ∈ seen, P x) →
      dedupFirstAux (seen.map f) (l.map f) = (dedupFirstAux seen l).map f := by
  intro l
  induction l with
  | nil => intro seen _ _; rfl
  | cons a l ih =>
      intro seen hl hs
      simp only [List.map_cons, dedupFirstAux]
      have hmem : f a ∈ seen.map f ↔ a ∈ seen := by
        constructor
        · intro hm
          obtain ⟨x, hx, hfx⟩ := List.mem_map.mp hm
          rw [hinj x a (hs x hx) (hl a (by simp)) hfx] at hx
          exact hx
        · intro hm
          exact List.mem_map.mpr ⟨a, hm, rfl⟩
      split_ifs with h1 h2
      · exact ih seen (fun x hx => hl x (by simp [hx])) hs
      · exact absurd (hmem.mp h1) h2
      · exact absurd (hmem.mpr (by assumption)) h1
      · rw [List.map_cons]
        congr 1
        have := ih (a :: seen) (fun x hx => hl x (by simp [hx]))
          (fun x hx => by rcases List.mem_cons.mp hx with rfl | hx
                          exacts [hl x (by simp), hs x hx])
        rw [← this]
        rfl

theorem dedupFirst_map {β : Type} [DecidableEq β] (f : α → β) (P : α → Prop)
    (hinj : ∀ x y, P x → P y → f x = f y → x = y) (l : List α) (hl : ∀ x ∈ l, P x) :
    dedupFirst (l.map f) = (dedupFirst l).map f := by
  rw [dedupFirst, dedupFirst]
  have := dedupFirstAux_map f P hinj l [] hl (by simp)
  simpa using this

end DedupLemmas

/-! ## Bridges between the string pipeline and day numbers -/

theorem strLtB_iff (s t : String) : strLtB s t = true ↔ s < t := by
  rw [strLtB, decide_eq_true_eq, String.lt_iff_toList_lt]
  exact Iff.rfl

theorem parseVal_spec {s : String} {n : Nat} (h : parseD s = some n) : parseVal s = n := by
  rw [parseVal, h]; rfl

theorem filterMap_eq_map_of_isSome {α β : Type} (f : α → Option β) (g : α → β) :
    ∀ (l : List α), (∀ x ∈ l, f x = some (g x)) → l.filterMap f = l.map g := by
  intro l
  induction l with
  | nil => intro _; rfl
  | cons a l ih =>
      intro h
      rw [List.filterMap_cons, List.map_cons, h a (by simp), ih (fun x hx => h x (by simp [hx]))]

/-- The elements of the normalized check-in list are valid, and the
day-number normalization is its pointwise parse; the day-number list is
strictly descending and duplicate-free. -/
theorem natNormalize_spec {checkIns : List String}
    (h : ∀ s ∈ checkIns, (parseD (stripT s)).isSome = true) :
    (∀ s ∈ normalizeCheckIns checkIns, parseD s = some (parseVal s))
    ∧ natNormalize checkIns = (normalizeCheckIns checkIns).map parseVal
    ∧ (natNormalize checkIns).Pairwise (· > ·)
    ∧ (natNormalize checkIns).Nodup
    ∧ (normalizeCheckIns checkIns).Nodup := by
  set P : String → Prop := fun s => (parseD s).isSome = true with hP
  set ss := checkIns.map stripT with hss
  have hssP : ∀ s ∈ ss, P s := by
    intro s hs
    obtain ⟨x, hx, rfl⟩ := List.mem_map.mp hs
    exact h x hx
  have hPparse : ∀ s, P s → parseD s = some (parseVal s) := by
    intro s hs
    obtain ⟨n, hn⟩ := Option.isSome_iff_exists.mp hs
    rw [hn, parseVal_spec hn]
  have hinj : ∀ x y, P x → P y → parseVal x = parseVal y → x = y := by
    intro x y hx hy hxy
    exact parseD_inj (hPparse x hx) (hxy ▸ hPparse y hy)
  -- the deduplicated valid string list
  set ls := dedupFirst ss with hls
  have hlsP : ∀ s ∈ ls, P s := fun s hs => hssP s (mem_dedupFirst.mp hs)
  have hlsn : ls.Nodup := nodup_dedupFirst ss
  -- the string-level sorted list
  set X := sortDescStr ls with hX
  have hXnorm : normalizeCheckIns checkIns = X := rfl
  have hXperm : X.Perm ls := sortDesc_perm ls
  have hXP : ∀ s ∈ X, P s := fun s hs => hlsP s (hXperm.mem_iff.mp hs)
  have hXn : X.Nodup := hXperm.nodup_iff.mpr hlsn
  have hXpw : X.Pairwise (· > ·) := sortDesc_pairwise_gt strLtB_iff hlsn
  -- the day-number side
  have hfm : checkIns.filterMap (fun s => parseD (stripT s)) = ss.map parseVal := by
    rw [hss, List.map_map]
    exact filterMap_eq_map_of_isSome _ _ checkIns (fun x hx => hPparse (stripT x) (h x hx))
  have hdm : dedupFirst (ss.map parseVal) = ls.map parseVal :=
    dedupFirst_map parseVal P hinj ss hssP
  have hnat : natNormalize checkIns = sortDesc (fun a b => decide (a < b)) (ls.map parseVal) := by
    rw [natNormalize, hfm, hdm]
  have hlsmapn : (ls.map parseVal).Nodup :=
    List.Nodup.map_on (fun x hx y hy hxy => hinj x y (hlsP x hx) (hlsP y hy) hxy) hlsn
  -- X.map parseVal is itself the descending sort of ls.map parseVal
  have hXmapn : (X.map parseVal).Nodup :=
    List.Nodup.map_on (fun x hx y hy hxy => hinj x y (hXP x hx) (hXP y hy) hxy) hXn
  have hXmappw : (X.map parseVal).Pairwise (· > ·) := by
    rw [List.pairwise_map]
    refine hXpw.imp_of_mem ?_
    intro a b ha hb hab
    obtain ⟨na, hna⟩ := Option.isSome_iff_exists.mp (hXP a ha)
    obtain ⟨nb, hnb⟩ := Option.isSome_iff_exists.mp (hXP b hb)
    rw [parseVal_spec hna, parseVal_spec hnb]
    exact parseD_lt_of_lt hnb hna hab
  have hXmapperm : (X.map parseVal).Perm (ls.map parseVal) := hXperm.map parseVal
  have hnatX : natNormalize checkIns = X.map parseVal := by
    haveI : IsAntisymm Nat (· > ·) := ⟨fun a b ha hb => absurd ha (lt_asymm hb)⟩
    rw [hnat]
    exact List.eq_of_perm_of_sorted ((sortDesc_perm _).trans hXmapperm.symm)
      (sortDesc_pairwise_gt (fun a b => by rw [decide_eq_true_eq]) hlsmapn) hXmappw
  refine ⟨?_, ?_, ?_, ?_, ?_⟩
  · rw [hXnorm]; exact fun s hs => hPparse s (hXP s hs)
  · rw [hXnorm, hnatX]
  · rw [hnatX]; exact hXmappw
  · rw [hnatX]; exact hXmapn
  · rw [hXnorm]; exact hXn

theorem getDaysDifference_some {a b : String} {x y : Nat}
    (ha : parseD a = some x) (hb : parseD b = some y) :
    getDaysDifference a b = some (Nat.dist x y) := by
  simp [getDaysDifference, ha, hb]

theorem currentStreakLoop_bridge :
    ∀ {X : List String} {N : List Nat},
      List.Forall₂ (fun s n => parseD s = some n) X N → (∀ n ∈ N, 366 ≤ n) →
      ∀ e v, parseD e = some v → currentStreakLoop e X = consecCount v N := by
  intro X N hXN
  induction hXN with
  | nil => intro _ e v _; rfl
  | @cons s n X' N' hsn htail ih =>
      intro hfloor e v he
      have hn : 366 ≤ n := hfloor n (by simp)
      have hfl' : ∀ x ∈ N', 366 ≤ x := fun x hx => hfloor x (by simp [hx])
      simp only [currentStreakLoop, consecCount, getDaysDifference_some hsn he,
        beq_iff_eq, Option.some.injEq]
      by_cases hnv : n = v
      · rw [if_pos (Nat.dist_eq_zero hnv), if_pos hnv]
        subst hnv
        rw [ih hfl' (prevDateString s) (n - 1) (parseD_prevDateString hsn hn)]
      · rw [if_neg (fun hc => hnv (Nat.eq_of_dist_eq_zero hc)), if_neg hnv]

theorem longestLoop_bridge :
    ∀ {X : List String} {N : List Nat},
      List.Forall₂ (fun s n => parseD s = some n) X N →
      ∀ p np t g, parseD p = some np → longestLoop p t g X = longestLoopN np t g N := by
  intro X N hXN
  induction hXN with
  | nil => intro p np t g _; rfl
  | @cons s n X' N' hsn htail ih =>
      intro p np t g hp
      simp only [longestLoop, longestLoopN, getDaysDifference_some hp hsn,
        beq_iff_eq, Option.some.injEq]
      by_cases hd : Nat.dist np n = 1
      · rw [if_pos hd, if_pos hd, ih s n (t + 1) g hsn]
      · rw [if_neg hd, if_neg hd, ih s n 1 (max g t) hsn]

theorem computeCurrentStreak_bridge {X : List String} {N : List Nat}
    (hXN : List.Forall₂ (fun s n => parseD s = some n) X N)
    (hfloor : ∀ n ∈ N, 366 ≤ n)
    {today : String} {t : Nat} (ht : parseD today = some t) (htf : 366 ≤ t) :
    computeCurrentStreak X today = specCurrentStreak N t := by
  cases hXN with
  | nil => rfl
  | @cons s n X' N' hsn htail =>
      have hfl' : ∀ x ∈ N', 366 ≤ x := fun x hx => hfloor x (by simp [hx])
      simp only [computeCurrentStreak, specCurrentStreak, getYesterdayDateString]
      by_cases hnt : n = t
      · have hst : s = today := parseD_inj (hnt ▸ hsn) ht
        rw [if_pos (by rw [hst, beq_self_eq_true]), if_pos hnt]
        rw [currentStreakLoop_bridge htail hfl' (prevDateString today) (t - 1)
          (parseD_prevDateString ht htf)]
      · have hst : s ≠ today := by
          intro hc
          rw [hc, ht] at hsn
          exact hnt (Option.some.inj hsn).symm
        rw [if_neg (by simpa using hst), if_neg hnt]

theorem computeLongestStreak_bridge {X : List String} {N : List Nat}
    (hXN : List.Forall₂ (fun s n => parseD s = some n) X N) :
    computeLongestStreak X = longestScanN N := by
  cases hXN with
  | nil => rfl
  | @cons s n X' N' hsn htail =>
      simp only [computeLongestStreak, longestScanN]
      exact longestLoop_bridge htail s n 1 0 hsn

/-! ## The longest-streak scan computes the maximal run length -/

theorem longestLoopN_eq_scanPure :
    ∀ (L : List Nat) (p t g : Nat), longestLoopN p t g L = max g (scanPure p t L) := by
  intro L
  induction L with
  | nil => intro p t g; rfl
  | cons c rest ih =>
      intro p t g
      simp only [longestLoopN, scanPure]
      split_ifs with hd
      · exact ih c (t + 1) g
      · rw [ih c 1 (max g t), Nat.max_assoc]

theorem downRun_le : ∀ (L : List Nat) (p : Nat), downRun p L ≤ p := by
  intro L
  induction L with
  | nil => intro p; exact Nat.zero_le p
  | cons c rest ih =>
      intro p
      simp only [downRun]
      split_ifs with hc
      · have := ih c
        omega
      · omega

theorem downRun_le_length : ∀ (L : List Nat) (p : Nat), downRun p L ≤ L.length := by
  intro L
  induction L with
  | nil => intro p; exact Nat.le_refl 0
  | cons c rest ih =>
      intro p
      simp only [downRun, List.length_cons]
      split_ifs with hc
      · have := ih c
        omega
      · omega

theorem downRun_mem :
    ∀ {L : List Nat} {p : Nat}, (∀ x ∈ L, x < p) → L.Pairwise (· > ·) →
      ∀ i < downRun p L, (p - 1 - i) ∈ L := by
  intro L
  induction L with
  | nil => intro p _ _ i hi; simp [downRun] at hi
  | cons c rest ih =>
      intro p hp hd i hi
      rw [List.pairwise_cons] at hd
      simp only [downRun] at hi
      by_cases hc : c + 1 = p
      swap
      · rw [if_neg hc] at hi
        omega
      rw [if_pos hc] at hi
      cases i with
      | zero =>
          have : p - 1 - 0 = c := by omega
          rw [this]
          exact List.mem_cons_self c rest
      | succ j =>
          have hj : j < downRun c rest := by omega
          have hmem := ih (fun x hx => hd.1 x hx) hd.2 j hj
          have : p - 1 - (j + 1) = c - 1 - j := by omega
          rw [this]
          exact List.mem_cons_of_mem c hmem

theorem downRun_take_lb :
    ∀ {L : List Nat} {p : Nat}, (∀ x ∈ L, x < p) → L.Pairwise (· > ·) →
      ∀ x ∈ L.take (downRun p L), p - downRun p L ≤ x ∧ x < p := by
  intro L
  induction L with
  | nil => intro p _ _ x hx; simp [downRun] at hx
  | cons c rest ih =>
      intro p hp hd x hx
      rw [List.pairwise_cons] at hd
      have hcp : c < p := hp c (by simp)
      simp only [downRun] at hx ⊢
      split_ifs at hx ⊢ with hc
      · have h1 : 1 + downRun c rest = downRun c rest + 1 := by omega
        rw [h1, List.take_succ_cons] at hx
        have hk := downRun_le rest c
        rcases List.mem_cons.mp hx with rfl | hxr
        · constructor <;> omega
        · have := ih (fun y hy => hd.1 y hy) hd.2 x hxr
          constructor <;> omega
      · simp at hx

theorem downRun_drop_bound :
    ∀ {L : List Nat} {p : Nat}, (∀ x ∈ L, x < p) → L.Pairwise (· > ·) →
      ∀ x ∈ L.drop (downRun p L), x + 2 ≤ p - downRun p L := by
  intro L
  induction L with
  | nil => intro p _ _ x hx; simp at hx
  | cons c rest ih =>
      intro p hp hd
      rw [List.pairwise_cons] at hd
      simp only [downRun]
      split_ifs with hc
      · have h1 : 1 + downRun c rest = downRun c rest + 1 := by omega
        rw [h1, List.drop_succ_cons]
        intro x hx
        have := ih (fun y hy => hd.1 y hy) hd.2 x hx
        omega
      · intro x hx
        simp only [List.drop_zero] at hx
        have hcp : c < p := hp c (by simp)
        have hxc : x ≤ c := by
          rcases List.mem_cons.mp hx with rfl | hxr
          · exact le_rfl
          · exact le_of_lt (hd.1 x hxr)
        omega

theorem le_foldr_max {l : List Nat} {x : Nat} (h : x ∈ l) : x ≤ l.foldr max 0 := by
  induction l with
  | nil => simp at h
  | cons a l ih =>
      rcases List.mem_cons.mp h with rfl | h
      · exact le_max_left _ _
      · exact le_trans (ih h) (le_max_right _ _)

theorem foldr_max_le {l : List Nat} {c : Nat} (h : ∀ x ∈ l, x ≤ c) : l.foldr max 0 ≤ c := by
  induction l with
  | nil => simp
  | cons a l ih =>
      simp only [List.foldr_cons]
      exact max_le (h a (by simp)) (ih (fun x hx => h x (by simp [hx])))

theorem hasRunOfLen_iff {S : List Nat} {k : Nat} :
    hasRunOfLen S k = true ↔ ∃ d ∈ S, ∀ i < k, (d + i) ∈ S := by
  simp [hasRunOfLen, isRunLen, List.any_eq_true, List.all_eq_true, List.mem_range]

theorem run_le_length {S : List Nat} {d k : Nat}
    (hrun : ∀ i < k, (d + i) ∈ S) : k ≤ S.length := by
  have hsub : ((List.range k).map (d + ·)) ⊆ S := by
    intro x hx
    obtain ⟨i, hi, rfl⟩ := List.mem_map.mp hx
    exact hrun i (List.mem_range.mp hi)
  have hnd : ((List.range k).map (d + ·)).Nodup :=
    List.Nodup.map (fun a b hab => by omega) (List.nodup_range k)
  have := (hnd.subperm hsub).length_le
  simpa using this

theorem le_specLongestRun {S : List Nat} {d k : Nat} (hd : d ∈ S)
    (hrun : ∀ i < k, (d + i) ∈ S) (hk : k ≤ S.length) : k ≤ specLongestRun S := by
  apply le_foldr_max
  rw [List.mem_filter]
  exact ⟨List.mem_range.mpr (by omega), hasRunOfLen_iff.mpr ⟨d, hd, hrun⟩⟩

theorem specLongestRun_le {S : List Nat} {c : Nat}
    (h : ∀ k d, d ∈ S → (∀ i < k, (d + i) ∈ S) → k ≤ c) : specLongestRun S ≤ c := by
  apply foldr_max_le
  intro x hx
  rw [List.mem_filter] at hx
  obtain ⟨d, hd, hrun⟩ := hasRunOfLen_iff.mp hx.2
  exact h x d hd hrun

theorem scanPure_eq_downRun :
    ∀ {L : List Nat} {p t : Nat}, (∀ x ∈ L, x < p) → L.Pairwise (· > ·) →
      scanPure p t L = max (t + downRun p L) (longestScanN (L.drop (downRun p L))) := by
  intro L
  induction L with
  | nil =>
      intro p t _ _
      simp [scanPure, downRun, longestScanN]
  | cons c rest ih =>
      intro p t hp hd
      rw [List.pairwise_cons] at hd
      have hcp : c < p := hp c (by simp)
      have hdist : Nat.dist p c = p - c := by
        rw [Nat.dist_comm]
        exact Nat.dist_eq_sub_of_le (le_of_lt hcp)
      simp only [scanPure, downRun]
      by_cases hc : c + 1 = p
      · rw [if_pos (by omega), if_pos hc]
        have h1 : 1 + downRun c rest = downRun c rest + 1 := by omega
        rw [h1, List.drop_succ_cons, ih (fun x hx => hd.1 x hx) hd.2]
        congr 1
        omega
      · rw [if_neg (by omega), if_neg hc]
        simp only [List.drop_zero, longestScanN, longestLoopN_eq_scanPure, Nat.zero_max,
          Nat.add_zero]

theorem mem_le_head {a : Nat} {rest : List Nat} (hd : (a :: rest).Pairwise (· > ·)) :
    ∀ x ∈ a :: rest, x ≤ a := by
  intro x hx
  rcases List.mem_cons.mp hx with rfl | hxr
  · exact le_rfl
  · exact le_of_lt ((List.pairwise_cons.mp hd).1 x hxr)

theorem specLongestRun_cons_run {a : Nat} {rest : List Nat}
    (hd : (a :: rest).Pairwise (· > ·)) :
    specLongestRun (a :: rest) =
      max (1 + downRun a rest) (specLongestRun (rest.drop (downRun a rest))) := by
  have hp : ∀ x ∈ rest, x < a := (List.pairwise_cons.mp hd).1
  have hd2 : rest.Pairwise (· > ·) := (List.pairwise_cons.mp hd).2
  set dr := downRun a rest with hdr
  have hmem_run : ∀ i < 1 + dr, (a - i) ∈ a :: rest := by
    intro i hi
    cases i with
    | zero => exact List.mem_cons_self a rest
    | succ j =>
        have hmem := downRun_mem hp hd2 j (by omega)
        have he : a - (j + 1) = a - 1 - j := by omega
        rw [he]
        exact List.mem_cons_of_mem a hmem
  have hdr_le : dr ≤ a := downRun_le rest a
  have hdr_len : dr ≤ rest.length := downRun_le_length rest a
  have hk_len : 1 + dr ≤ (a :: rest).length := by
    simp only [List.length_cons]
    omega
  have hub := mem_le_head hd
  have hgap : 1 + dr ≤ a → (a - (1 + dr)) ∉ a :: rest := by
    intro hka hmem
    rcases List.mem_cons.mp hmem with heq | hmem'
    · omega
    · rw [← List.take_append_drop dr rest] at hmem'
      rcases List.mem_append.mp hmem' with htk | hdp
      · have := downRun_take_lb hp hd2 _ htk
        omega
      · have := downRun_drop_bound hp hd2 _ hdp
        omega
  apply le_antisymm
  · apply specLongestRun_le
    intro q d hdS hrun
    rcases Nat.eq_zero_or_pos q with rfl | hq
    · exact Nat.zero_le _
    have hend : d + (q - 1) ≤ a := hub _ (hrun (q - 1) (by omega))
    by_cases hcase : a + 1 ≤ d + (1 + dr)
    · exact le_trans (by omega) (le_max_left (1 + dr) _)
    · push_neg at hcase
      have hka : 1 + dr ≤ a := by omega
      have hbelow : d + q ≤ a - (1 + dr) := by
        by_contra hcon
        push_neg at hcon
        have hidx : a - (1 + dr) - d < q := by omega
        have hin := hrun (a - (1 + dr) - d) (by omega)
        have heq : d + (a - (1 + dr) - d) = a - (1 + dr) := by omega
        rw [heq] at hin
        exact hgap hka hin
      have hrunR : ∀ i < q, (d + i) ∈ rest.drop dr := by
        intro i hi
        have hmem := hrun i hi
        rcases List.mem_cons.mp hmem with heq | hmem'
        · omega
        · rw [← List.take_append_drop dr rest] at hmem'
          rcases List.mem_append.mp hmem' with htk | hdp
          · have := downRun_take_lb hp hd2 _ htk
            omega
          · exact hdp
      have hdR : d ∈ rest.drop dr := by
        have := hrunR 0 (by omega)
        simpa using this
      exact le_trans (le_specLongestRun hdR hrunR (run_le_length hrunR)) (le_max_right _ _)
  · apply max_le
    · refine le_specLongestRun (hmem_run dr (by omega)) ?_ hk_len
      intro i hi
      have heq : (a - dr) + i = a - (dr - i) := by omega
      rw [heq]
      exact hmem_run (dr - i) (by omega)
    · apply specLongestRun_le
      intro q d hdR hrun
      have hdS : d ∈ a :: rest := List.mem_cons_of_mem a (List.mem_of_mem_drop hdR)
      have hrunS : ∀ i < q, (d + i) ∈ a :: rest :=
        fun i hi => List.mem_cons_of_mem a (List.mem_of_mem_drop (hrun i hi))
      exact le_specLongestRun hdS hrunS (run_le_length hrunS)
      
theorem longestScanN_eq_spec_fuel :
    ∀ (fuel : Nat) (L : List Nat), L.length ≤ fuel → L.Pairwise (· > ·) →
      longestScanN L = specLongestRun L := by
  intro fuel
  induction fuel with
  | zero =>
      intro L hL _
      have hnil : L = [] := List.length_eq_zero.mp (by omega)
      subst hnil
      rfl
  | succ fuel ih =>
      intro L hL hd
      rcases L with _ | ⟨a, rest⟩
      · rfl
      · have hp : ∀ x ∈ rest, x < a := (List.pairwise_cons.mp hd).1
        have hd2 : rest.Pairwise (· > ·) := (List.pairwise_cons.mp hd).2
        have hdR : (rest.drop (downRun a rest)).Pairwise (· > ·) :=
          hd2.sublist (List.drop_sublist _ _)
        have hlen : (rest.drop (downRun a rest)).length ≤ fuel := by
          simp only [List.length_drop]
          simp only [List.length_cons] at hL
          omega
        calc longestScanN (a :: rest) = scanPure a 1 rest := by
              simp only [longestScanN]
              rw [longestLoopN_eq_scanPure, Nat.zero_max]
          _ = max (1 + downRun a rest) (longestScanN (rest.drop (downRun a rest))) :=
              scanPure_eq_downRun hp hd2
          _ = max (1 + downRun a rest) (specLongestRun (rest.drop (downRun a rest))) := by
              rw [ih _ hlen hdR]
          _ = specLongestRun (a :: rest) := (specLongestRun_cons_run hd).symm

theorem longestScanN_eq_specLongestRun {L : List Nat} (hd : L.Pairwise (· > ·)) :
    longestScanN L = specLongestRun L :=
  longestScanN_eq_spec_fuel L.length L le_rfl hd

/-! ## Master correspondence for `calculateStreaks` -/

theorem mem_normalizeCheckIns {cs : List String} {s : String} :
    s ∈ normalizeCheckIns cs ↔ ∃ x ∈ cs, stripT x = s := by
  rw [normalizeCheckIns, sortDescStr, mem_sortDesc, mem_dedupFirst, List.mem_map]

theorem normalizeCheckIns_ne_nil {cs : List String} (h : cs ≠ []) :
    normalizeCheckIns cs ≠ [] := by
  rw [normalizeCheckIns, sortDescStr]
  intro hc
  have hperm : (sortDesc strLtB (dedupFirst (cs.map stripT))).Perm
      (dedupFirst (cs.map stripT)) := sortDesc_perm (dedupFirst (cs.map stripT))
  rw [hc] at hperm
  have hlen := hperm.length_eq
  have hd : dedupFirst (cs.map stripT) ≠ [] :=
    dedupFirst_ne_nil (by rw [Ne, List.map_eq_nil_iff]; exact h)
  exact hd (List.length_eq_zero.mp (by simpa using hlen.symm))

theorem normalizeCheckIns_forall₂ {cs : List String}
    (hlog : ∀ s ∈ cs, (parseD (stripT s)).isSome = true) :
    List.Forall₂ (fun s n => parseD s = some n) (normalizeCheckIns cs) (natNormalize cs) := by
  obtain ⟨hval, hmap, _, _, _⟩ := natNormalize_spec hlog
  rw [hmap, List.forall₂_map_right_iff]
  rw [List.forall₂_same]
  exact hval

theorem calculateStreaks_longest_eq {h : Habit} (today : String)
    (hlog : ∀ s ∈ h.checkIns, (parseD (stripT s)).isSome = true) :
    (calculateStreaks h today).longestStreak = longestScanN (natNormalize h.checkIns) := by
  by_cases hne : h.checkIns = []
  · simp only [calculateStreaks, hne, List.isEmpty_nil, if_true]
    rfl
  · have hnormne := normalizeCheckIns_ne_nil hne
    simp only [calculateStreaks]
    rw [if_neg (by rw [List.isEmpty_iff]; exact hne)]
    rw [if_neg (by rw [List.isEmpty_iff]; exact hnormne)]
    exact computeLongestStreak_bridge (normalizeCheckIns_forall₂ hlog)

theorem calculateStreaks_current_eq {h : Habit} {today : String} {t : Nat}
    (hlog : ∀ s ∈ h.checkIns, (parseD (stripT s)).isSome = true)
    (hfloor : ∀ s ∈ h.checkIns, 366 ≤ parseVal (stripT s))
    (ht : parseD today = some t) (htf : 366 ≤ t) :
    (calculateStreaks h today).currentStreak = specCurrentStreak (natNormalize h.checkIns) t := by
  have hF := normalizeCheckIns_forall₂ hlog
  have hNfloor : ∀ n ∈ natNormalize h.checkIns, 366 ≤ n := by
    obtain ⟨hval, hmap, _, _, _⟩ := natNormalize_spec hlog
    intro n hn
    rw [hmap] at hn
    obtain ⟨s, hs, rfl⟩ := List.mem_map.mp hn
    obtain ⟨x, hx, rfl⟩ := mem_normalizeCheckIns.mp hs
    exact hfloor x hx
  by_cases hne : h.checkIns = []
  · simp only [calculateStreaks, hne, List.isEmpty_nil, if_true]
    rfl
  · have hnormne := normalizeCheckIns_ne_nil hne
    simp only [calculateStreaks]
    rw [if_neg (by rw [List.isEmpty_iff]; exact hne)]
    rw [if_neg (by rw [List.isEmpty_iff]; exact hnormne)]
    exact computeCurrentStreak_bridge hF hNfloor ht htf

/-! ## Extensionality of `calculateStreaks` in the stripped date set -/

theorem normalizeCheckIns_ext {cs1 cs2 : List String}
    (hm : ∀ x, x ∈ cs1.map stripT ↔ x ∈ cs2.map stripT) :
    normalizeCheckIns cs1 = normalizeCheckIns cs2 := by
  rw [normalizeCheckIns, normalizeCheckIns, sortDescStr, sortDescStr]
  exact sortDesc_eq_of_mem_iff strLtB_iff (nodup_dedupFirst _) (nodup_dedupFirst _)
    (fun x => by rw [mem_dedupFirst, mem_dedupFirst]; exact hm x)

theorem calculateStreaks_ext {h1 h2 : Habit} (today : String)
    (hm : ∀ x, x ∈ h1.checkIns.map stripT ↔ x ∈ h2.checkIns.map stripT) :
    calculateStreaks h1 today = calculateStreaks h2 today := by
  have hemp : h1.checkIns = [] ↔ h2.checkIns = [] := by
    constructor <;> intro he
    · rcases hcc : h2.checkIns with _ | ⟨c, cs⟩
      · rfl
      · exfalso
        have : stripT c ∈ h2.checkIns.map stripT := by rw [hcc]; simp
        rw [← hm] at this
        rw [he] at this
        simp at this
    · rcases hcc : h1.checkIns with _ | ⟨c, cs⟩
      · rfl
      · exfalso
        have : stripT c ∈ h1.checkIns.map stripT := by rw [hcc]; simp
        rw [hm] at this
        rw [he] at this
        simp at this
  by_cases hne : h1.checkIns = []
  · have h2e : h2.checkIns = [] := hemp.mp hne
    simp [calculateStreaks, hne, h2e]
  · have h2e : h2.checkIns ≠ [] := fun hc => hne (hemp.mpr hc)
    have hnorm : normalizeCheckIns h1.checkIns = normalizeCheckIns h2.checkIns :=
      normalizeCheckIns_ext hm
    simp only [calculateStreaks]
    rw [if_neg (by rw [List.isEmpty_iff]; exact hne),
      if_neg (by rw [List.isEmpty_iff]; exact normalizeCheckIns_ne_nil hne),
      if_neg (by rw [List.isEmpty_iff]; exact h2e),
      if_neg (by rw [List.isEmpty_iff]; exact normalizeCheckIns_ne_nil h2e),
      hnorm]

/-! ## Toggle lemmas -/

theorem map_eraseIdx {α β : Type} (f : α → β) :
    ∀ (l : List α) (i : Nat), (l.eraseIdx i).map f = (l.map f).eraseIdx i := by
  intro l
  induction l with
  | nil => intro i; rfl
  | cons a l ih =>
      intro i
      cases i with
      | zero => simp [List.eraseIdx_cons_zero]
      | succ j => simp [List.eraseIdx_cons_succ, ih]

theorem eraseIdx_append_last {α : Type} (a : α) :
    ∀ (l : List α), (l ++ [a]).eraseIdx l.length = l := by
  intro l
  induction l with
  | nil => rfl
  | cons b l ih => simp [List.eraseIdx_cons_succ, ih]

theorem get_not_mem_eraseIdx_of_nodup {α : Type} :
    ∀ {l : List α}, l.Nodup → ∀ (i : Nat) (hi : i < l.length), l.get ⟨i, hi⟩ ∉ l.eraseIdx i := by
  intro l
  induction l with
  | nil => intro _ i hi; simp at hi
  | cons a l ih =>
      intro hn i hi
      rw [List.nodup_cons] at hn
      cases i with
      | zero =>
          simp only [List.eraseIdx_cons_zero]
          exact hn.1
      | succ j =>
          simp only [List.eraseIdx_cons_succ]
          intro hmem
          rcases List.mem_cons.mp hmem with heq | hmem'
          · have hj : j < l.length := by simpa using hi
            have : l.get ⟨j, hj⟩ ∈ l := List.get_mem l j hj
            rw [show (a :: l).get ⟨j + 1, hi⟩ = l.get ⟨j, hj⟩ from rfl] at heq
            exact hn.1 (heq ▸ this)
          · have hj : j < l.length := by simpa using hi
            rw [show (a :: l).get ⟨j + 1, hi⟩ = l.get ⟨j, hj⟩ from rfl] at hmem'
            exact ih hn.2 j hj hmem'

theorem toggledCheckIns_found {cs : List String} {today : String} {i : Nat}
    (hf : cs.findIdx? (fun date => stripT date == today) = some i) :
    toggledCheckIns cs today = cs.eraseIdx i := by
  rw [toggledCheckIns, hf]

theorem toggledCheckIns_none {cs : List String} {today : String}
    (hf : cs.findIdx? (fun date => stripT date == today) = none)
    (hT : stripT today = today) :
    toggledCheckIns cs today = cs ++ [today] := by
  rw [toggledCheckIns, hf]
  rw [if_neg]
  intro hc
  have hmem : today ∈ cs := by
    have : cs.elem today = true := hc
    exact List.elem_iff.mp this
  have := List.findIdx?_eq_none_iff.mp hf today hmem
  rw [hT] at this
  simp at this

theorem toggleHabit_checkIns (h : Habit) (today : String) :
    (toggleHabit h today).checkIns = toggledCheckIns h.checkIns today := rfl

/-- When entry `i` is the one whose date part is today and the stripped
log is duplicate-free, no remaining entry has date part today. -/
theorem strip_today_not_mem_eraseIdx {cs : List String} {today : String} {i : Nat}
    (hinv : (cs.map stripT).Nodup) (hi : i < cs.length)
    (hpi : stripT (cs.get ⟨i, hi⟩) = today) :
    today ∉ (cs.eraseIdx i).map stripT := by
  rw [map_eraseIdx]
  have hMi : i < (cs.map stripT).length := by simpa using hi
  have hMval : (cs.map stripT).get ⟨i, hMi⟩ = today := by
    rw [List.get_map]
    exact hpi
  rw [← hMval]
  exact get_not_mem_eraseIdx_of_nodup hinv i hMi

/-! ## Further helper lemmas for the claims -/

theorem natNormalize_floor {cs : List String}
    (hlog : ∀ s ∈ cs, (parseD (stripT s)).isSome = true)
    (hfloor : ∀ s ∈ cs, 366 ≤ parseVal (stripT s)) :
    ∀ n ∈ natNormalize cs, 366 ≤ n := by
  obtain ⟨hval, hmap, _, _, _⟩ := natNormalize_spec hlog
  intro n hn
  rw [hmap] at hn
  obtain ⟨s, hs, rfl⟩ := List.mem_map.mp hn
  obtain ⟨x, hx, rfl⟩ := mem_normalizeCheckIns.mp hs
  exact hfloor x hx

theorem natNormalize_ne_nil {cs : List String}
    (hlog : ∀ s ∈ cs, (parseD (stripT s)).isSome = true)
    (hne : cs ≠ []) : natNormalize cs ≠ [] := by
  have hF := normalizeCheckIns_forall₂ hlog
  intro hc
  rw [hc, List.forall₂_nil_right_iff] at hF
  exact normalizeCheckIns_ne_nil hne hF

theorem normalize_head_eq_mostRecent {cs : List String} {s m : String}
    (hs : (sortDescStr (cs.map stripT)).head? = some s)
    (hm : (normalizeCheckIns cs).head? = some m) : m = s := by
  obtain ⟨hsmem, hsmax⟩ := sortDesc_head_max strLtB_iff hs
  obtain ⟨hmmem, hmmax⟩ := sortDesc_head_max strLtB_iff hm
  rw [mem_dedupFirst] at hmmem
  exact le_antisymm (hsmax m hmmem) (hmmax s (mem_dedupFirst.mpr hsmem))

theorem calculateStreaks_current_zero {h : Habit} {today m : String}
    (hhead : (normalizeCheckIns h.checkIns).head? = some m) (hne : m ≠ today) :
    (calculateStreaks h today).currentStreak = 0 := by
  have hcs : h.checkIns ≠ [] := by
    intro hc
    rw [show normalizeCheckIns h.checkIns = [] by rw [hc]; rfl] at hhead
    simp at hhead
  simp only [calculateStreaks]
  rw [if_neg (by rw [List.isEmpty_iff]; exact hcs),
    if_neg (by rw [List.isEmpty_iff]; exact normalizeCheckIns_ne_nil hcs)]
  rcases hnm : normalizeCheckIns h.checkIns with _ | ⟨m', rest⟩
  · exact absurd hnm (normalizeCheckIns_ne_nil hcs)
  · rw [hnm] at hhead
    simp only [List.head?_cons, Option.some.injEq] at hhead
    subst hhead
    simp only [computeCurrentStreak]
    rw [if_neg (by simpa using hne)]

theorem specLongestRun_singleton (n : Nat) : specLongestRun [n] = 1 := by
  apply le_antisymm
  · apply specLongestRun_le
    intro k d hd hrun
    simp only [List.mem_singleton] at hd
    subst hd
    by_contra hk
    push_neg at hk
    have h1 := hrun 1 (by omega)
    simp only [List.mem_singleton] at h1
    omega
  · refine le_specLongestRun (List.mem_singleton_self n) ?_ (by simp)
    intro i hi
    have hi0 : i = 0 := by omega
    subst hi0
    simp

theorem natNormalize_singleton {s : String} {n : Nat} (h : parseD (stripT s) = some n) :
    natNormalize [s] = [n] := by
  simp [natNormalize, List.filterMap_cons, h, dedupFirst, dedupFirstAux, sortDesc,
    List.foldr_cons, List.foldr_nil, insertDesc]

theorem consecCount_mem {N' : List Nat} :
    ∀ {e : Nat}, ∀ i < consecCount e N', (e - i) ∈ N' := by
  induction N' with
  | nil => intro e i hi; simp [consecCount] at hi
  | cons d rest ih =>
      intro e i hi
      simp only [consecCount] at hi
      split_ifs at hi with hde
      · cases i with
        | zero =>
            subst hde
            simpa using List.mem_cons_self d rest
        | succ j =>
            have hj : j < consecCount (e - 1) rest := by omega
            have hmem := ih j hj
            have heq : e - (j + 1) = e - 1 - j := by omega
            rw [heq]
            exact List.mem_cons_of_mem _ hmem
      · omega

theorem specCurrentStreak_mem {N : List Nat} {t : Nat} :
    ∀ i < specCurrentStreak N t, (t - i) ∈ N := by
  cases N with
  | nil => intro i hi; simp [specCurrentStreak] at hi
  | cons mr rest =>
      intro i hi
      simp only [specCurrentStreak] at hi
      split_ifs at hi with hmt
      · cases i with
        | zero =>
            subst hmt
            simpa using List.mem_cons_self mr rest
        | succ j =>
            subst hmt
            have hj : j < consecCount (mr - 1) rest := by omega
            have hmem := consecCount_mem j hj
            have heq : mr - (j + 1) = mr - 1 - j := by omega
            rw [heq]
            exact List.mem_cons_of_mem _ hmem
      · omega

/-! ## Claims -/

/-- C10: Refreshing a habit's streaks modifies only the `currentStreak` and
`longestStreak` fields: `updateStreaks` leaves `id`, `name`, `checkIns` and
`createdAt` unchanged (and `calculateStreaks` is a pure function of the
habit, so the check-in list itself is never modified). -/
theorem c10_updateStreaks_frame (h : Habit) (today : String) :
    (updateStreaks h today).id = h.id
    ∧ (updateStreaks h today).name = h.name
    ∧ (updateStreaks h today).checkIns = h.checkIns
    ∧ (updateStreaks h today).createdAt = h.createdAt :=
  ⟨rfl, rfl, rfl, rfl⟩

/-- C7: `calculateStreaks` is insensitive to duplicates and embedded time
components: any check-in log produces exactly the same
`{currentStreak, longestStreak}` as the deduplicated, date-only
(time-stripped) log. -/
theorem c7_duplicate_insensitivity (h : Habit) (today : String) :
    calculateStreaks h today =
      calculateStreaks { h with checkIns := dedupFirst (h.checkIns.map stripT) } today := by
  apply calculateStreaks_ext
  intro x
  show x ∈ h.checkIns.map stripT ↔ x ∈ (dedupFirst (h.checkIns.map stripT)).map stripT
  constructor
  · intro hx
    rw [List.mem_map]
    refine ⟨x, mem_dedupFirst.mpr hx, ?_⟩
    obtain ⟨y, _, rfl⟩ := List.mem_map.mp hx
    exact stripT_stripT y
  · intro hx
    obtain ⟨z, hz, rfl⟩ := List.mem_map.mp hx
    have hz' := mem_dedupFirst.mp hz
    obtain ⟨y, hy, rfl⟩ := List.mem_map.mp hz'
    rw [stripT_stripT]
    exact hz'

/-- C5 is false as stated: a malformed check-in entry is kept by the
normalization of `calculateStreaks`, not dropped.  With
`today = "2024-06-10"`, the log `["2024-06-10", "2024-06-09", "garbage"]`
yields `{0, 2}`, while the same log with the malformed entry removed
yields `{2, 2}`. -/
theorem c5_counterexample :
    calculateStreaks ⟨"1", "habit", ["2024-06-10", "2024-06-09", "garbage"], 0, 0, "t"⟩
        "2024-06-10" = ⟨0, 2⟩
    ∧ calculateStreaks ⟨"1", "habit", ["2024-06-10", "2024-06-09"], 0, 0, "t"⟩
        "2024-06-10" = ⟨2, 2⟩
    ∧ calculateStreaks ⟨"1", "habit", ["2024-06-10", "2024-06-09", "garbage"], 0, 0, "t"⟩
          "2024-06-10" ≠
        calculateStreaks ⟨"1", "habit", ["2024-06-10", "2024-06-09"], 0, 0, "t"⟩
          "2024-06-10" := by
  refine ⟨by decide, by decide, by decide⟩

/-- C5 (amended): malformed check-in entries are kept (after stripping any
time component) rather than dropped, but they never abort the computation:
they cannot equal a well-formed `today` and so never anchor a current
streak, and they participate in the longest-streak scan as run breakers;
in particular a log consisting of a single malformed entry yields
`{currentStreak := 0, longestStreak := 1}` instead of the `{0, 0}` that
dropping would give. -/
theorem c5_amended (s today : String) (h : Habit)
    (hc : h.checkIns = [s]) (hs : parseD (stripT s) = none)
    (ht : (parseD today).isSome = true) :
    calculateStreaks h today = ⟨0, 1⟩ := by
  have hne : stripT s ≠ today := by
    intro hcon
    rw [hcon] at hs
    rw [hs] at ht
    simp at ht
  have hnorm : normalizeCheckIns h.checkIns = [stripT s] := by
    rw [hc]
    simp [normalizeCheckIns, sortDescStr, dedupFirst, dedupFirstAux, sortDesc,
      List.foldr_cons, List.foldr_nil, insertDesc]
  simp only [calculateStreaks]
  rw [if_neg (by rw [List.isEmpty_iff, hc]; simp),
    if_neg (by rw [List.isEmpty_iff, hnorm]; simp), hnorm]
  simp only [computeCurrentStreak, computeLongestStreak, longestLoop]
  rw [if_neg (by simpa using hne)]
  rfl

/-- Witness for C5 (amended) at `s = "garbage"`, `today = "2024-06-10"`. -/
theorem c5_amended_witness :
    calculateStreaks ⟨"1", "habit", ["garbage"], 0, 0, "t"⟩ "2024-06-10" = ⟨0, 1⟩ :=
  c5_amended "garbage" "2024-06-10" ⟨"1", "habit", ["garbage"], 0, 0, "t"⟩
    (by decide) (by decide) (by decide)

/-- C2 is false as stated: when a date change is detected but no habit
crosses the more-than-one-day threshold (here: no habits at all), the
reconciliation runs without updating the stored last-reconciled date. -/
theorem c2_counterexample :
    hasDateChanged ⟨[], some "2024-06-09"⟩ "2024-06-10" = true
    ∧ (checkDateAndReconcile ⟨[], some "2024-06-09"⟩ "2024-06-10").lastCheckedDate
        = some "2024-06-09" := by
  refine ⟨by decide, by decide⟩

/-- C2 (amended): the stored last-checked date is updated to today exactly
when the rollover found some habit needing recomputation (in which case it
saves); otherwise reconciliation leaves it unchanged.  Every save does set
it to today. -/
theorem c2_save_behaviour (st : AppState) (today : String) :
    (handleDateRollover st today).lastCheckedDate =
      (if st.habits.any (fun h => rolloverNeedsUpdate h today) then some today
       else st.lastCheckedDate)
    ∧ ∀ (st2 : AppState) (d : String), (saveHabitsToStorage st2 d).lastCheckedDate = some d := by
  constructor
  · simp only [handleDateRollover, saveHabitsToStorage]
    split_ifs <;> rfl
  · intro st2 d
    rfl

/-- C3: for every check-in log of well-formed dates and every today, the
current streak is zero unless the most recent normalized entry equals
today; when it does, today counts as 1, each entry equal to the expected
predecessor increments the count, and the first entry that is not the
expected date stops the walk with no look-ahead — i.e. the computed
current streak equals the specification walk `specCurrentStreak` on the
deduplicated descending day-number list. -/
theorem c3_current_streak_spec (h : Habit) (today : String) (t : Nat)
    (ht : parseD today = some t) (htf : 366 ≤ t)
    (hlog : ∀ s ∈ h.checkIns, GoodDate (stripT s)) :
    (calculateStreaks h today).currentStreak =
      specCurrentStreak (natNormalize h.checkIns) t :=
  calculateStreaks_current_eq (fun s hs => (hlog s hs).1) (fun s hs => (hlog s hs).2) ht htf

/-- Witness for C3 at `today = "2024-06-10"` (day number 739412) and the
log `["2024-06-10", "2024-06-09", "2024-06-07"]`. -/
theorem c3_witness :
    parseD "2024-06-10" = some 739412 ∧ 366 ≤ 739412
    ∧ (∀ s ∈ ["2024-06-10", "2024-06-09", "2024-06-07"], GoodDate (stripT s))
    ∧ (calculateStreaks ⟨"1", "habit", ["2024-06-10", "2024-06-09", "2024-06-07"], 0, 0, "t"⟩
          "2024-06-10").currentStreak =
        specCurrentStreak
          (natNormalize ["2024-06-10", "2024-06-09", "2024-06-07"]) 739412 :=
  ⟨by decide, by decide, by decide,
    c3_current_streak_spec ⟨"1", "habit", ["2024-06-10", "2024-06-09", "2024-06-07"], 0, 0, "t"⟩
      "2024-06-10" 739412 (by decide) (by decide) (by decide)⟩

/-- C4: for every check-in log of well-formed dates, the longest streak is
the maximum length of a consecutive-day run anywhere in the deduplicated
date set (`specLongestRun`), independent of today (the equation holds for
every `today`), and a non-empty single-entry log yields longest streak 1. -/
theorem c4_longest_streak_spec (h : Habit) (today : String)
    (hlog : ∀ s ∈ h.checkIns, (parseD (stripT s)).isSome = true) :
    (calculateStreaks h today).longestStreak = specLongestRun (natNormalize h.checkIns)
    ∧ (h.checkIns.length = 1 → (calculateStreaks h today).longestStreak = 1) := by
  obtain ⟨hval, hmap, hpw, hnn, hXn⟩ := natNormalize_spec hlog
  have hmain : (calculateStreaks h today).longestStreak =
      specLongestRun (natNormalize h.checkIns) := by
    rw [calculateStreaks_longest_eq today hlog]
    exact longestScanN_eq_specLongestRun hpw
  refine ⟨hmain, ?_⟩
  intro hlen
  rcases hc : h.checkIns with _ | ⟨s, rest⟩
  · rw [hc] at hlen
    simp at hlen
  · have hrest : rest = [] := by
      rw [hc] at hlen
      simpa using hlen
    subst hrest
    obtain ⟨n, hn⟩ := Option.isSome_iff_exists.mp (hlog s (by rw [hc]; simp))
    rw [hmain, hc, natNormalize_singleton hn, specLongestRun_singleton]

/-- Witness for C4 at `today = "2024-06-10"` and the single-entry log
`["2024-06-08"]`. -/
theorem c4_witness :
    (∀ s ∈ ["2024-06-08"], (parseD (stripT s)).isSome = true)
    ∧ (calculateStreaks ⟨"1", "habit", ["2024-06-08"], 0, 0, "t"⟩ "2024-06-10").longestStreak =
        specLongestRun (natNormalize ["2024-06-08"])
    ∧ ((["2024-06-08"] : List String).length = 1 →
        (calculateStreaks ⟨"1", "habit", ["2024-06-08"], 0, 0, "t"⟩ "2024-06-10").longestStreak = 1) :=
  ⟨by decide,
    (c4_longest_streak_spec ⟨"1", "habit", ["2024-06-08"], 0, 0, "t"⟩ "2024-06-10" (by decide)).1,
    (c4_longest_streak_spec ⟨"1", "habit", ["2024-06-08"], 0, 0, "t"⟩ "2024-06-10" (by decide)).2⟩

/-- C6: for every non-empty check-in log of well-formed dates and every
today, the longest streak is at least 1, both results are non-negative,
and a positive current streak never exceeds the longest streak. -/
theorem c6_streak_bounds (h : Habit) (today : String) (t : Nat)
    (hne : h.checkIns ≠ [])
    (ht : parseD today = some t) (htf : 366 ≤ t)
    (hlog : ∀ s ∈ h.checkIns, GoodDate (stripT s)) :
    1 ≤ (calculateStreaks h today).longestStreak
    ∧ 0 ≤ (calculateStreaks h today).currentStreak
    ∧ 0 ≤ (calculateStreaks h today).longestStreak
    ∧ (0 < (calculateStreaks h today).currentStreak →
        (calculateStreaks h today).currentStreak ≤ (calculateStreaks h today).longestStreak) := by
  have hlog1 : ∀ s ∈ h.checkIns, (parseD (stripT s)).isSome = true :=
    fun s hs => (hlog s hs).1
  have hfloor : ∀ s ∈ h.checkIns, 366 ≤ parseVal (stripT s) :=
    fun s hs => (hlog s hs).2
  obtain ⟨hval, hmap, hpw, hnn, hXn⟩ := natNormalize_spec hlog1
  have hlongEq : (calculateStreaks h today).longestStreak =
      specLongestRun (natNormalize h.checkIns) := by
    rw [calculateStreaks_longest_eq today hlog1]
    exact longestScanN_eq_specLongestRun hpw
  have hcurEq := calculateStreaks_current_eq hlog1 hfloor ht htf
  have hNfloor := natNormalize_floor hlog1 hfloor
  have hNne := natNormalize_ne_nil hlog1 hne
  refine ⟨?_, Nat.zero_le _, Nat.zero_le _, ?_⟩
  · rw [hlongEq]
    rcases hNN : natNormalize h.checkIns with _ | ⟨n, N'⟩
    · exact absurd hNN hNne
    · refine le_specLongestRun (List.mem_cons_self n N') ?_ (by simp)
      intro i hi
      have hi0 : i = 0 := by omega
      subst hi0
      simp
  · intro hpos
    rw [hcurEq] at hpos ⊢
    rw [hlongEq]
    set N := natNormalize h.checkIns with hN
    set c := specCurrentStreak N t with hcdef
    have hmem : ∀ i < c, (t - i) ∈ N := fun i hi => specCurrentStreak_mem i hi
    have htop : (t - (c - 1)) ∈ N := hmem (c - 1) (by omega)
    have htfloor : 366 ≤ t - (c - 1) := hNfloor _ htop
    have hct : c - 1 ≤ t := by omega
    have hrun : ∀ i < c, ((t - (c - 1)) + i) ∈ N := by
      intro i hi
      have heq : (t - (c - 1)) + i = t - (c - 1 - i) := by omega
      rw [heq]
      exact hmem (c - 1 - i) (by omega)
    exact le_specLongestRun htop hrun (run_le_length hrun)

/-- Witness for C6 at `today = "2024-06-10"` and the log
`["2024-06-10", "2024-06-09"]`. -/
theorem c6_witness :
    (["2024-06-10", "2024-06-09"] : List String) ≠ []
    ∧ parseD "2024-06-10" = some 739412 ∧ 366 ≤ 739412
    ∧ (∀ s ∈ ["2024-06-10", "2024-06-09"], GoodDate (stripT s))
    ∧ 1 ≤ (calculateStreaks ⟨"1", "habit", ["2024-06-10", "2024-06-09"], 0, 0, "t"⟩
        "2024-06-10").longestStreak :=
  ⟨by decide, by decide, by decide, by decide,
    (c6_streak_bounds ⟨"1", "habit", ["2024-06-10", "2024-06-09"], 0, 0, "t"⟩ "2024-06-10"
      739412 (by decide) (by decide) (by decide) (by decide)).1⟩

/-- C1 is false as stated: with `lastCheckedDate = "2024-06-09"` and
`today = "2024-06-10"` a date change is detected, yet the habit whose most
recent check-in is yesterday is left untouched by the rollover — its
stored `currentStreak` stays 2 while `calculateStreaks` on the new today
yields 0, so not every habit ends with stored fields equal to the freshly
computed ones. -/
theorem c1_counterexample :
    hasDateChanged
        ⟨[⟨"1", "habit", ["2024-06-09", "2024-06-08"], 2, 2, "t"⟩], some "2024-06-09"⟩
        "2024-06-10" = true
    ∧ ¬ (∀ hb ∈ (checkDateAndReconcile
          ⟨[⟨"1", "habit", ["2024-06-09", "2024-06-08"], 2, 2, "t"⟩], some "2024-06-09"⟩
          "2024-06-10").habits,
        hb.currentStreak = (calculateStreaks hb "2024-06-10").currentStreak) := by
  refine ⟨by decide, by decide⟩

/-- C1 (amended): the rollover recomputes streaks via the Streak Engine
only for habits whose most recent (time-stripped) check-in is more than
one day away from the current today; such a habit — in particular one
whose most recent check-in is two days before the new today — ends with
stored fields equal to `calculateStreaks` under the new today, hence with
`currentStreak = 0`; a habit that does not meet the threshold is left
completely unchanged. -/
theorem c1_rollover_conditional (st : AppState) (today : String) (t : Nat)
    (h : Habit) (s : String)
    (ht : parseD today = some t) (htf : 732 ≤ t)
    (hs : mostRecentCheckIn h = some s) (hsp : parseD s = some (t - 2)) :
    (handleDateRollover st today).habits = st.habits.map (fun x => rolloverStep x today)
    ∧ rolloverNeedsUpdate h today = true
    ∧ rolloverStep h today = updateStreaks h today
    ∧ (rolloverStep h today).currentStreak = 0
    ∧ (rolloverStep h today).longestStreak = (calculateStreaks h today).longestStreak
    ∧ ∀ h2 : Habit, rolloverNeedsUpdate h2 today = false → rolloverStep h2 today = h2 := by
  have hdist : Nat.dist (t - 2) t = 2 := by
    rw [Nat.dist_eq_sub_of_le (by omega)]
    omega
  have hup : rolloverNeedsUpdate h today = true := by
    simp only [rolloverNeedsUpdate, hs, getDaysDifference_some hsp ht, hdist]
    rfl
  have hstep : rolloverStep h today = updateStreaks h today := by
    rw [rolloverStep, if_pos hup]
  have hsne : s ≠ today := by
    intro hcon
    rw [hcon, ht] at hsp
    have := Option.some.inj hsp
    omega
  have hcs0 : (calculateStreaks h today).currentStreak = 0 := by
    rcases hnm : (normalizeCheckIns h.checkIns).head? with _ | m
    · exfalso
      have hcsne : h.checkIns ≠ [] := by
        intro hc
        rw [mostRecentCheckIn, hc] at hs
        simp [sortDescStr, sortDesc] at hs
      rcases hn2 : normalizeCheckIns h.checkIns with _ | ⟨a, b⟩
      · exact normalizeCheckIns_ne_nil hcsne hn2
      · rw [hn2] at hnm
        simp at hnm
    · have hms : m = s := normalize_head_eq_mostRecent hs hnm
      exact calculateStreaks_current_zero hnm (hms ▸ hsne)
  refine ⟨?_, hup, hstep, ?_, ?_, ?_⟩
  · simp only [handleDateRollover, saveHabitsToStorage]
    split_ifs <;> rfl
  · rw [hstep]
    exact hcs0
  · rw [hstep]
    rfl
  · intro h2 hfalse
    rw [rolloverStep, if_neg (by rw [hfalse]; simp)]

/-- Witness for C1 (amended): `today = "2024-06-10"` (day 739412) and a
habit whose most recent check-in is `"2024-06-08"` (two days earlier). -/
theorem c1_amended_witness :
    parseD "2024-06-10" = some 739412 ∧ 732 ≤ 739412
    ∧ mostRecentCheckIn ⟨"1", "habit", ["2024-06-08", "2024-06-07"], 2, 2, "t"⟩
        = some "2024-06-08"
    ∧ parseD "2024-06-08" = some (739412 - 2)
    ∧ rolloverNeedsUpdate ⟨"1", "habit", ["2024-06-08", "2024-06-07"], 2, 2, "t"⟩
        "2024-06-10" = true
    ∧ (rolloverStep ⟨"1", "habit", ["2024-06-08", "2024-06-07"], 2, 2, "t"⟩
        "2024-06-10").currentStreak = 0 :=
  ⟨by decide, by decide, by decide, by decide,
    (c1_rollover_conditional ⟨[], none⟩ "2024-06-10" 739412
      ⟨"1", "habit", ["2024-06-08", "2024-06-07"], 2, 2, "t"⟩ "2024-06-08"
      (by decide) (by decide) (by decide) (by decide)).2.1,
    (c1_rollover_conditional ⟨[], none⟩ "2024-06-10" 739412
      ⟨"1", "habit", ["2024-06-08", "2024-06-07"], 2, 2, "t"⟩ "2024-06-08"
      (by decide) (by decide) (by decide) (by decide)).2.2.2.1⟩

/-- C9: the check-in toggle preserves the at-most-one-entry-per-calendar-date
invariant: when the stripped log is duplicate-free, it stays duplicate-free
after `toggleHabit`, and today's count in the stripped log becomes 0 when
today was present (the entry is removed) and exactly 1 when it was absent
(it is inserted exactly once — inserting an already-present date never
happens). -/
theorem c9_toggle_invariant (h : Habit) (today : String)
    (hT : stripT today = today)
    (hinv : (h.checkIns.map stripT).Nodup) :
    ((toggleHabit h today).checkIns.map stripT).Nodup
    ∧ ((toggleHabit h today).checkIns.map stripT).count today =
        (if today ∈ h.checkIns.map stripT then 0 else 1) := by
  rw [toggleHabit_checkIns]
  rcases hf : h.checkIns.findIdx? (fun date => stripT date == today) with _ | i
  · have habs : today ∉ h.checkIns.map stripT := by
      intro hmem
      obtain ⟨x, hx, hsx⟩ := List.mem_map.mp hmem
      have hfx := List.findIdx?_eq_none_iff.mp hf x hx
      rw [hsx] at hfx
      simp at hfx
    rw [toggledCheckIns_none hf hT]
    refine ⟨?_, ?_⟩
    · rw [List.map_append, List.nodup_append]
      refine ⟨hinv, by simp, ?_⟩
      simp only [List.map_cons, List.map_nil, hT, List.disjoint_singleton]
      exact habs
    · rw [if_neg habs, List.map_append, List.count_append]
      simp only [List.map_cons, List.map_nil, hT]
      rw [List.count_eq_zero.mpr habs, List.count_singleton]
      simp
  · obtain ⟨hi, hpi, _⟩ := List.findIdx?_eq_some_iff_getElem.mp hf
    rw [beq_iff_eq] at hpi
    have hpi' : stripT (h.checkIns.get ⟨i, hi⟩) = today := hpi
    have hpres : today ∈ h.checkIns.map stripT :=
      List.mem_map.mpr ⟨h.checkIns.get ⟨i, hi⟩, List.get_mem _ i hi, hpi'⟩
    rw [toggledCheckIns_found hf]
    refine ⟨?_, ?_⟩
    · rw [map_eraseIdx]
      exact hinv.sublist (List.eraseIdx_sublist _ i)
    · rw [if_pos hpres, List.count_eq_zero]
      exact strip_today_not_mem_eraseIdx hinv hi hpi'

/-- Witness for C9 at `today = "2024-06-10"` and the log `["2024-06-09"]`. -/
theorem c9_witness :
    stripT "2024-06-10" = "2024-06-10"
    ∧ ((["2024-06-09"] : List String).map stripT).Nodup
    ∧ ((toggleHabit ⟨"1", "habit", ["2024-06-09"], 0, 1, "t"⟩ "2024-06-10").checkIns.map
        stripT).Nodup :=
  ⟨by decide, by decide,
    (c9_toggle_invariant ⟨"1", "habit", ["2024-06-09"], 0, 1, "t"⟩ "2024-06-10"
      (by decide) (by decide)).1⟩

/-- The double toggle restores the stripped date set. -/
theorem toggledCheckIns_twice_mem {cs : List String} {today : String}
    (hT : stripT today = today) (hinv : (cs.map stripT).Nodup) :
    ∀ x, x ∈ (toggledCheckIns (toggledCheckIns cs today) today).map stripT ↔
      x ∈ cs.map stripT := by
  rcases hf : cs.findIdx? (fun date => stripT date == today) with _ | i
  · -- absent: push, then find and erase at the end
    have hall : ∀ x ∈ cs, (stripT x == today) = false := List.findIdx?_eq_none_iff.mp hf
    rw [toggledCheckIns_none hf hT]
    have hfind2 : (cs ++ [today]).findIdx? (fun date => stripT date == today)
        = some cs.length := by
      rw [List.findIdx?_append, hf]
      simp only [List.findIdx?_cons, hT, beq_self_eq_true, if_true, List.findIdx?_nil]
      simp
    rw [toggledCheckIns_found hfind2, eraseIdx_append_last]
    intro x
    exact Iff.rfl
  · -- present: erase, then no entry matches, push
    obtain ⟨hi, hpi, _⟩ := List.findIdx?_eq_some_iff_getElem.mp hf
    rw [beq_iff_eq] at hpi
    have hpi' : stripT (cs.get ⟨i, hi⟩) = today := hpi
    have hnm := strip_today_not_mem_eraseIdx hinv hi hpi'
    rw [toggledCheckIns_found hf]
    have hfind2 : (cs.eraseIdx i).findIdx? (fun date => stripT date == today) = none := by
      rw [List.findIdx?_eq_none_iff]
      intro x hx
      rw [beq_eq_false_iff_ne]
      intro hc
      exact hnm (List.mem_map.mpr ⟨x, hx, hc⟩)
    rw [toggledCheckIns_none hfind2 hT]
    intro x
    rw [List.map_append, List.mem_append]
    simp only [List.map_cons, List.map_nil, hT, List.mem_singleton]
    rw [map_eraseIdx]
    have hMi : i < (cs.map stripT).length := by simpa using hi
    have hMival : (cs.map stripT).get ⟨i, hMi⟩ = today := by
      rw [List.get_map]
      exact hpi'
    constructor
    · rintro (hx | rfl)
      · exact (List.eraseIdx_sublist (cs.map stripT) i).subset hx
      · rw [← hMival]
        exact List.get_mem _ i hMi
    · intro hx
      by_cases hxt : x = today
      · exact Or.inr hxt
      · left
        obtain ⟨⟨j, hj⟩, hget⟩ := List.mem_iff_get.mp hx
        have hne : j ≠ i := by
          intro hji
          subst hji
          rw [← hget] at hxt
          exact hxt (by rw [show (cs.map stripT).get ⟨j, hj⟩ = (cs.map stripT).get ⟨j, hMi⟩ from rfl, hMival])
        rw [List.mem_eraseIdx_iff_getElem]
        exact ⟨j, hj, hne, hget⟩

/-- C8: toggling the same date twice restores the habit: for a habit whose
stripped log is duplicate-free and whose stored streak fields agree with
`calculateStreaks` (the data model keeps them derived), the double toggle
restores the check-in log up to set equality on calendar dates and
restores both streak values. -/
theorem c8_toggle_roundtrip (h : Habit) (today : String)
    (hT : stripT today = today)
    (hinv : (h.checkIns.map stripT).Nodup)
    (hcur : h.currentStreak = (calculateStreaks h today).currentStreak)
    (hlong : h.longestStreak = (calculateStreaks h today).longestStreak) :
    (∀ x, x ∈ (toggleHabit (toggleHabit h today) today).checkIns.map stripT ↔
        x ∈ h.checkIns.map stripT)
    ∧ (toggleHabit (toggleHabit h today) today).currentStreak = h.currentStreak
    ∧ (toggleHabit (toggleHabit h today) today).longestStreak = h.longestStreak := by
  have hmem : ∀ x, x ∈ (toggledCheckIns (toggledCheckIns h.checkIns today) today).map stripT ↔
      x ∈ h.checkIns.map stripT := toggledCheckIns_twice_mem hT hinv
  have hchk : (toggleHabit (toggleHabit h today) today).checkIns
      = toggledCheckIns (toggledCheckIns h.checkIns today) today := rfl
  have hext : calculateStreaks
      { toggleHabit h today with
          checkIns := toggledCheckIns (toggleHabit h today).checkIns today } today
      = calculateStreaks h today := by
    apply calculateStreaks_ext
    intro x
    exact hmem x
  refine ⟨fun x => by rw [hchk]; exact hmem x, ?_, ?_⟩
  · show (calculateStreaks _ today).currentStreak = h.currentStreak
    rw [hext, hcur]
  · show (calculateStreaks _ today).longestStreak = h.longestStreak
    rw [hext, hlong]

/-- Witness for C8 at `today = "2024-06-10"` and a habit checked in today
and yesterday with derived streaks `{2, 2}`. -/
theorem c8_witness :
    stripT "2024-06-10" = "2024-06-10"
    ∧ ((["2024-06-10", "2024-06-09"] : List String).map stripT).Nodup
    ∧ (2 : Nat) = (calculateStreaks ⟨"1", "habit", ["2024-06-10", "2024-06-09"], 2, 2, "t"⟩
        "2024-06-10").currentStreak
    ∧ (2 : Nat) = (calculateStreaks ⟨"1", "habit", ["2024-06-10", "2024-06-09"], 2, 2, "t"⟩
        "2024-06-10").longestStreak
    ∧ (toggleHabit (toggleHabit ⟨"1", "habit", ["2024-06-10", "2024-06-09"], 2, 2, "t"⟩
        "2024-06-10") "2024-06-10").currentStreak = 2 :=
  ⟨by decide, by decide, by decide, by decide,
    (c8_toggle_roundtrip ⟨"1", "habit", ["2024-06-10", "2024-06-09"], 2, 2, "t"⟩ "2024-06-10"
      (by decide) (by decide) (by decide) (by decide)).2.1⟩

end HabitTracker
